import Mathlib

/-!
# Verification of the turbo deferred-pipeline scheduling engine

The repository ships an example (`examples/workflow/parallel_deferred_pipeline.cc`)
driving a pipeline scheduling engine (`turbo::Pipeline`): tokens are minted in
increasing order at stage 0 and flow through a fixed sequence of stages executed
by a fixed number of concurrent lanes; a stage callable may `defer` its token on
other tokens or `stop` the run at stage 0.

The engine itself (`turbo/workflow/algorithm/pipeline.h`) is not among the
source files available here — only the example that calls it is.  Following the
specification, the engine is therefore modelled below as an executable
interleaving state machine: each scheduler step is one atomic lane action
(begin an invocation, finish an invocation, mint a token, resume a deferred
token, attempt a drain check), and a run is a fold of such steps over an
arbitrary choice sequence.  Stage-callable invocations span two steps (a
`start` and a `finish`), so overlapping invocations of different lanes are
representable.  All definitions in this file are modelled from the
specification's words; the example's callables are translated from the example
source, which is available.
-/

namespace Turbo

/-- Modelled from the spec: stage kind — `ORDERED` stages observe tokens in
increasing id order, `UNORDERED` stages impose no cross-lane ordering.
(The example source calls these `PipeType::SERIAL` / `PipeType::PARALLEL`.) -/
inductive StageKind
  | ordered
  | unordered
deriving DecidableEq, Repr

/-- Modelled from the spec: the token context passed to a stage callable —
token identity, lane index, stage index, and the token's deferral count
(`num_deferrals()`). -/
structure TokenCtx where
  token : Nat
  lane : Nat
  stage : Nat
  count : Nat
deriving DecidableEq, Repr

/-- Modelled from the spec: the observable outcome of one stage-callable
invocation — the list of `defer(id)` calls it issued (in call order) and
whether it called `stop()`.  Callables are deterministic (pure functions of
the context), matching the spec's determinism assumptions. -/
structure CallResult where
  defers : List Nat
  stop : Bool
deriving DecidableEq, Repr

/-- Modelled from the spec: a stage — a kind and a user-supplied callable
operating on a token context. -/
structure Stage where
  kind : StageKind
  callable : TokenCtx → CallResult

/-- Modelled from the spec: pipeline construction parameters — lane count and
the ordered stage sequence. -/
structure Pipeline where
  laneCount : Nat
  stages : List Stage

/-- Number of stages of the pipeline. -/
def Pipeline.numStages (P : Pipeline) : Nat := P.stages.length

/-- Kind of stage `s` (defaulting to `ordered` out of range; never reached on
valid runs). -/
def Pipeline.kindAt (P : Pipeline) (s : Nat) : StageKind :=
  match P.stages.get? s with
  | some st => st.kind
  | none => StageKind.ordered

/-- Result of running stage `s`'s callable on context `c` (the empty result out
of range; never reached on valid runs). -/
def Pipeline.callAt (P : Pipeline) (s : Nat) (c : TokenCtx) : CallResult :=
  match P.stages.get? s with
  | some st => st.callable c
  | none => ⟨[], false⟩

/-- Modelled from the spec: configuration validity — at least one lane, at
least one stage, and stage 0 must be `ORDERED` (only stage 0 may mint tokens
or signal stop). -/
def Pipeline.valid (P : Pipeline) : Prop :=
  1 ≤ P.laneCount ∧ 0 < P.stages.length ∧ P.kindAt 0 = StageKind.ordered

/-- Modelled from the spec: error taxonomy of a run.  `ConfigurationError` is a
construction-time failure and is captured by `Pipeline.valid` instead. -/
inductive Err
  | protocolViolation
  | dependencyCycle
  | unresolvableForward
deriving DecidableEq, Repr

/-- Modelled from the spec: a lane is an execution cursor — idle, holding a
token between stages, or executing a stage-callable invocation for a token. -/
inductive LaneState
  | idle
  | holding (t : Nat)
  | executing (t : Nat)
deriving DecidableEq, Repr

/-- Does lane state `l` hold token `t` (either between stages or mid-invocation)? -/
def LaneState.resident (l : LaneState) (t : Nat) : Bool :=
  match l with
  | LaneState.idle => false
  | LaneState.holding u => u = t
  | LaneState.executing u => u = t

/-- Modelled from the spec: one entry of the deferral graph — a blocked token,
the stage at which the deferral was declared, and its current set of blocking
token ids.  (The spec's inverse waiter index is a performance artifact with no
observable content and is left implicit.) -/
structure BlockedRec where
  token : Nat
  stage : Nat
  blockers : List Nat
deriving DecidableEq, Repr

/-- Modelled from the spec: the pipeline controller state.  `cursor` is the
token-generation cursor (tokens `0 .. cursor-1` are minted), `stopped` records
the token at which `stop()` was declared, `prog` gives per minted token the
number of stages it has completed, `dcnt` its deferral count, `blocked` is the
deferral graph, `error` the first fatal run error (the run is aborted once it
is set). -/
structure PState where
  cursor : Nat
  stopped : Option Nat
  lanes : List LaneState
  prog : List Nat
  dcnt : List Nat
  blocked : List BlockedRec
  error : Option Err
deriving DecidableEq, Repr

/-- Modelled from the spec: the initial / reset controller state — token cursor
0, all lanes idle, deferral graph empty. -/
def initState (P : Pipeline) : PState :=
  ⟨0, none, List.replicate P.laneCount LaneState.idle, [], [], [], none⟩

/-- Modelled from the spec: `reset()` returns the controller to its initial
state. -/
def PState.reset (_st : PState) (P : Pipeline) : PState := initState P

/-- Is token `t` currently in the deferral graph? -/
def PState.isBlocked (st : PState) (t : Nat) : Bool :=
  st.blocked.any (fun r => r.token = t)

/-- Stages completed by token `t` (0 when unminted). -/
def PState.progOf (st : PState) (t : Nat) : Nat := st.prog.getD t 0

/-- Deferral count of token `t` (0 when unminted). -/
def PState.dcntOf (st : PState) (t : Nat) : Nat := st.dcnt.getD t 0

/-- Modelled from the spec: a blocking token `d` has *cleared* a dependency
declared at stage `s` once it has been minted and has advanced past stage `s`.
An unminted id has `progOf = 0` and so never counts as cleared. -/
def PState.clearedFor (st : PState) (s d : Nat) : Bool :=
  decide (s < st.progOf d)

/-- Modelled from the spec: ordering discipline — token `t` may begin execution
at stage `s` only if `s` is `UNORDERED`, or every token with a smaller id has
either already advanced past `s` or is currently blocked by deferral. -/
def gate (P : Pipeline) (st : PState) (t s : Nat) : Bool :=
  match P.kindAt s with
  | StageKind.unordered => true
  | StageKind.ordered =>
      (List.range t).all (fun u => decide (s < st.progOf u) || st.isBlocked u)

/-- Blockers currently recorded for token `u` in the deferral graph (empty when
`u` is not blocked). -/
def PState.blockersOf (st : PState) (u : Nat) : List Nat :=
  match st.blocked.find? (fun r => r.token = u) with
  | some r => r.blockers
  | none => []

/-- Modelled from the spec: bounded traversal of the blocking chain — does the
chain starting from `frontier` reach `target` within `fuel` steps? -/
def chainReaches (st : PState) : Nat → List Nat → Nat → Bool
  | 0, _, _ => false
  | fuel + 1, frontier, target =>
      frontier.any (fun d => d = target) ||
        chainReaches st fuel ((frontier.map st.blockersOf).flatten) target

/-- Modelled from the spec: incremental cycle detection — adding edges
`t → D` creates a cycle iff `t` is reachable from `D` along existing
blocking chains. -/
def wouldCycle (st : PState) (t : Nat) (D : List Nat) : Bool :=
  chainReaches st (st.blocked.length + 1) D t

/-- Modelled from the spec: one scheduler choice — which lane acts and how.
`mint` claims the next token id and begins it at stage 0; `start` begins the
held token's invocation at its current stage; `finish` completes a lane's
in-flight invocation and applies its effects; `resume` lets an idle lane pick
up the `k`-th deferral-graph entry whose blocking set has cleared;
`drainCheck` reports `UnresolvableForwardDeferral` at drain time. -/
inductive Choice
  | mint (l : Nat)
  | start (l : Nat)
  | finish (l : Nat)
  | resume (l : Nat) (k : Nat)
  | drainCheck
deriving DecidableEq, Repr

/-- Modelled from the spec: one observable invocation event.  `startE t s c`:
a stage-callable invocation of token `t` at stage `s` begins with deferral
count `c`; `endE t s c D stp`: that invocation returns having issued `defer`
calls `D` (in order) and stop flag `stp`.  `nop` is emitted by choices that do
not fire. -/
inductive Event
  | nop
  | startE (t s c : Nat)
  | endE (t s c : Nat) (defers : List Nat) (stp : Bool)
deriving DecidableEq, Repr

/-- State after an invocation of token `t` at stage `s` on lane `l` returns
with no deferrals: the token advances one stage (the lane goes idle after the
last stage, otherwise holds the token for the next stage); a stop request
records the stopping token. -/
def passPost (P : Pipeline) (st : PState) (l t s : Nat) (stp : Bool) : PState :=
  { st with
      stopped := if stp then some t else st.stopped
      prog := st.prog.set t (s + 1)
      lanes := st.lanes.set l
        (if s + 1 = P.numStages then LaneState.idle else LaneState.holding t) }

/-- State after an invocation of token `t` at stage `s` on lane `l` returns
having deferred on the (deduplicated, non-self) set `D`: the token enters the
deferral graph at its current stage and the lane is released. -/
def deferPost (st : PState) (l t s : Nat) (D : List Nat) (stp : Bool) : PState :=
  { st with
      stopped := if stp then some t else st.stopped
      blocked := st.blocked ++ [⟨t, s, D⟩]
      lanes := st.lanes.set l LaneState.idle }

/-- Effects of a finished invocation of token `t` on lane `l` at stage `s`
with result `res`: protocol violations (stop off stage 0, self-defer) abort
the run; a non-empty defer set moves the token into the deferral graph at its
current stage (after cycle detection) and frees the lane; otherwise the token
advances one stage (leaving the pipeline after the last stage), and a stop at
stage 0 marks that no further tokens will be minted. -/
def applyFinish (P : Pipeline) (st : PState) (l t s : Nat) (res : CallResult) : PState :=
  if res.stop && decide (s ≠ 0) then
    { st with error := some Err.protocolViolation }
  else if res.defers.any (fun d => d = t) then
    { st with error := some Err.protocolViolation }
  else if res.defers.isEmpty then
    passPost P st l t s res.stop
  else if wouldCycle st t res.defers.dedup then
    { st with
      stopped := if res.stop then some t else st.stopped
      error := some Err.dependencyCycle }
  else
    deferPost st l t s res.defers.dedup res.stop

/-- Case analysis on the effects of a finished invocation, mirroring the five
branches of `applyFinish`. -/
theorem applyFinish_cases (P : Pipeline) (st : PState) (l t s : Nat) (res : CallResult)
    (motive : PState → Prop)
    (hpv1 : res.stop = true → s ≠ 0 →
      motive { st with error := some Err.protocolViolation })
    (hpv2 : res.defers.any (fun d => d = t) = true →
      motive { st with error := some Err.protocolViolation })
    (hpass : res.defers = [] → (res.stop = true → s = 0) →
      motive (passPost P st l t s res.stop))
    (hcyc : res.defers ≠ [] → (res.stop = true → s = 0) →
      res.defers.any (fun d => d = t) = false →
      wouldCycle st t res.defers.dedup = true →
      motive { st with
        stopped := if res.stop then some t else st.stopped
        error := some Err.dependencyCycle })
    (hdefer : res.defers ≠ [] → (res.stop = true → s = 0) →
      res.defers.any (fun d => d = t) = false →
      wouldCycle st t res.defers.dedup = false →
      motive (deferPost st l t s res.defers.dedup res.stop)) :
    motive (applyFinish P st l t s res) := by
  unfold applyFinish
  by_cases h1 : (res.stop && decide (s ≠ 0)) = true
  · rw [if_pos h1]
    simp only [Bool.and_eq_true, decide_eq_true_eq] at h1
    exact hpv1 h1.1 h1.2
  · rw [if_neg h1]
    have hns : res.stop = true → s = 0 := by
      intro hs
      by_contra hne
      exact h1 (by simp [hs, hne])
    by_cases h2 : res.defers.any (fun d => d = t) = true
    · rw [if_pos h2]
      exact hpv2 h2
    · rw [if_neg h2]
      have h2' : res.defers.any (fun d => d = t) = false := by
        cases hany : res.defers.any (fun d => d = t)
        · rfl
        · exact absurd hany h2
      by_cases h3 : res.defers.isEmpty = true
      · rw [if_pos h3]
        exact hpass (List.isEmpty_iff.mp h3) hns
      · rw [if_neg h3]
        have h3' : res.defers ≠ [] := by
          simpa [List.isEmpty_iff] using h3
        by_cases h4 : wouldCycle st t res.defers.dedup = true
        · rw [if_pos h4]
          exact hcyc h3' hns h2' h4
        · rw [if_neg h4]
          refine hdefer h3' hns h2' ?_
          cases hc : wouldCycle st t res.defers.dedup
          · rfl
          · exact absurd hc h4

/-- State after a lane `l` claims the next token id and begins it at stage 0. -/
def mintPost (st : PState) (l : Nat) : PState :=
  { st with
      cursor := st.cursor + 1
      prog := st.prog ++ [0]
      dcnt := st.dcnt ++ [0]
      lanes := st.lanes.set l (LaneState.executing st.cursor) }

/-- State after lane `l` begins executing its held token `t` at its stage. -/
def startPost (st : PState) (l t : Nat) : PState :=
  { st with lanes := st.lanes.set l (LaneState.executing t) }

/-- State after idle lane `l` resumes the blocked token of record `r`: the
record leaves the deferral graph, the token's deferral count is incremented by
one, and its re-invocation begins. -/
def resumePost (st : PState) (l : Nat) (r : BlockedRec) : PState :=
  { st with
      blocked := st.blocked.filter (fun r' => r'.token != r.token)
      dcnt := st.dcnt.set r.token (st.dcntOf r.token + 1)
      lanes := st.lanes.set l (LaneState.executing r.token) }

/-- Guard of the drain check: minting has stopped, all lanes are idle, and some
deferral-graph entry waits on an id that can no longer be minted. -/
def drainStuck (st : PState) : Bool :=
  st.stopped ≠ none && st.lanes.all (fun l => l = LaneState.idle) &&
    st.blocked.any (fun r => r.blockers.any (fun d => decide (st.cursor ≤ d)))

/-- Guard of the mint choice: minting not stopped, the pipeline has a stage 0,
and the ordering gate admits the next token at stage 0. -/
def mintGuard (P : Pipeline) (st : PState) : Bool :=
  st.stopped = none && decide (0 < P.numStages) && gate P st st.cursor 0

/-- Guard of the resume choice for record `r`: every blocker has cleared and
the ordering gate admits the token back at its recorded stage. -/
def resumeGuard (P : Pipeline) (st : PState) (r : BlockedRec) : Bool :=
  r.blockers.all (fun d => st.clearedFor r.stage d) && gate P st r.token r.stage

/-- Modelled from the spec: one atomic scheduler step.  A choice whose guards
do not hold (wrong lane state, gate closed, blockers not cleared, stop or
error in force) is a no-op emitting `nop`.  Once `error` is set the run is
aborted: every step is a no-op. -/
def stepE (P : Pipeline) (st : PState) (ch : Choice) : PState × Event :=
  if st.error ≠ none then (st, Event.nop) else
  match ch with
  | Choice.mint l =>
      match st.lanes.get? l with
      | some LaneState.idle =>
          if mintGuard P st then
            (mintPost st l, Event.startE st.cursor 0 0)
          else (st, Event.nop)
      | _ => (st, Event.nop)
  | Choice.start l =>
      match st.lanes.get? l with
      | some (LaneState.holding t) =>
          if gate P st t (st.progOf t) then
            (startPost st l t, Event.startE t (st.progOf t) (st.dcntOf t))
          else (st, Event.nop)
      | _ => (st, Event.nop)
  | Choice.finish l =>
      match st.lanes.get? l with
      | some (LaneState.executing t) =>
          let s := st.progOf t
          let res := P.callAt s ⟨t, l, s, st.dcntOf t⟩
          (applyFinish P st l t s res, Event.endE t s (st.dcntOf t) res.defers res.stop)
      | _ => (st, Event.nop)
  | Choice.resume l k =>
      match st.lanes.get? l with
      | some LaneState.idle =>
          match st.blocked.get? k with
          | some r =>
              if resumeGuard P st r then
                (resumePost st l r, Event.startE r.token r.stage (st.dcntOf r.token + 1))
              else (st, Event.nop)
          | none => (st, Event.nop)
      | _ => (st, Event.nop)
  | Choice.drainCheck =>
      if drainStuck st then
        ({ st with error := some Err.unresolvableForward }, Event.nop)
      else (st, Event.nop)

/-- Run the controller from `st` over a choice sequence, collecting one event
per step. -/
def runFrom (P : Pipeline) (st : PState) : List Choice → PState × List Event
  | [] => (st, [])
  | ch :: cs =>
      let p := stepE P st ch
      let q := runFrom P p.1 cs
      (q.1, p.2 :: q.2)

/-- Final state of a run from the initial state. -/
def runState (P : Pipeline) (cs : List Choice) : PState :=
  (runFrom P (initState P) cs).1

/-- Event trace of a run from the initial state. -/
def runTrace (P : Pipeline) (cs : List Choice) : List Event :=
  (runFrom P (initState P) cs).2

/-- Modelled from the spec: the terminal drained state — minting has stopped,
every lane is idle, the deferral graph is empty, and no fatal error occurred. -/
def PState.drained (st : PState) : Bool :=
  st.stopped ≠ none && st.lanes.all (fun l => l = LaneState.idle) &&
    st.blocked.isEmpty && st.error = none

/-- Master case analysis on one scheduler step: every step is either a no-op
(`nop` event, state unchanged), a mint, a start, a finish, a resume, or a
drain-check failure.  All invariant-preservation and event-inversion lemmas
below go through this single lemma. -/
theorem step_cases (P : Pipeline) (st : PState) (ch : Choice)
    (motive : PState → Event → Prop)
    (hnop : motive st Event.nop)
    (hmint : ∀ l, st.error = none → st.lanes.get? l = some LaneState.idle →
      mintGuard P st = true → ch = Choice.mint l →
      motive (mintPost st l) (Event.startE st.cursor 0 0))
    (hstart : ∀ l t, st.error = none → st.lanes.get? l = some (LaneState.holding t) →
      gate P st t (st.progOf t) = true → ch = Choice.start l →
      motive (startPost st l t) (Event.startE t (st.progOf t) (st.dcntOf t)))
    (hfinish : ∀ l t, st.error = none → st.lanes.get? l = some (LaneState.executing t) →
      ch = Choice.finish l →
      motive
        (applyFinish P st l t (st.progOf t)
          (P.callAt (st.progOf t) ⟨t, l, st.progOf t, st.dcntOf t⟩))
        (Event.endE t (st.progOf t) (st.dcntOf t)
          (P.callAt (st.progOf t) ⟨t, l, st.progOf t, st.dcntOf t⟩).defers
          (P.callAt (st.progOf t) ⟨t, l, st.progOf t, st.dcntOf t⟩).stop))
    (hresume : ∀ l k r, st.error = none → st.lanes.get? l = some LaneState.idle →
      st.blocked.get? k = some r → resumeGuard P st r = true → ch = Choice.resume l k →
      motive (resumePost st l r) (Event.startE r.token r.stage (st.dcntOf r.token + 1)))
    (hdrain : st.error = none → drainStuck st = true → ch = Choice.drainCheck →
      motive { st with error := some Err.unresolvableForward } Event.nop) :
    motive (stepE P st ch).1 (stepE P st ch).2 := by
  unfold stepE
  by_cases he : st.error = none
  · simp only [he, ne_eq, not_false_eq_true, not_true_eq_false, if_false, if_neg,
      reduceIte]
    cases ch with
    | mint l =>
        dsimp only
        rcases hl : st.lanes.get? l with _ | ls
        · exact hnop
        · cases ls with
          | idle =>
              by_cases hg : mintGuard P st = true
              · simp only [hg, if_true]
                exact hmint l he hl hg rfl
              · simp only [Bool.not_eq_true] at hg
                simp only [hg, Bool.false_eq_true, if_false]
                exact hnop
          | holding t => exact hnop
          | executing t => exact hnop
    | start l =>
        dsimp only
        rcases hl : st.lanes.get? l with _ | ls
        · exact hnop
        · cases ls with
          | idle => exact hnop
          | holding t =>
              by_cases hg : gate P st t (st.progOf t) = true
              · simp only [hg, if_true]
                exact hstart l t he hl hg rfl
              · simp only [Bool.not_eq_true] at hg
                simp only [hg, Bool.false_eq_true, if_false]
                exact hnop
          | executing t => exact hnop
    | finish l =>
        dsimp only
        rcases hl : st.lanes.get? l with _ | ls
        · exact hnop
        · cases ls with
          | idle => exact hnop
          | holding t => exact hnop
          | executing t =>
              exact hfinish l t he hl rfl
    | resume l k =>
        dsimp only
        rcases hl : st.lanes.get? l with _ | ls
        · exact hnop
        · cases ls with
          | idle =>
              rcases hk : st.blocked.get? k with _ | r
              · exact hnop
              · by_cases hg : resumeGuard P st r = true
                · simp only [hg, if_true]
                  exact hresume l k r he hl hk hg rfl
                · simp only [Bool.not_eq_true] at hg
                  simp only [hg, Bool.false_eq_true, if_false]
                  exact hnop
          | holding t => exact hnop
          | executing t => exact hnop
    | drainCheck =>
        dsimp only
        by_cases hg : drainStuck st = true
        · simp only [hg, if_true]
          exact hdrain he hg rfl
        · simp only [Bool.not_eq_true] at hg
          simp only [hg, Bool.false_eq_true, if_false]
          exact hnop
  · simp only [he, ne_eq, not_false_eq_true, if_true, reduceIte]
    exact hnop

/-- Once an error is set, every step is a no-op: the run is aborted. -/
theorem step_frozen (P : Pipeline) (st : PState) (ch : Choice)
    (he : st.error ≠ none) : stepE P st ch = (st, Event.nop) := by
  unfold stepE
  rw [if_pos he]

/-! ### Small list helpers -/

theorem getD_append_le (xs ys : List Nat) (t : Nat) :
    xs.getD t 0 ≤ (xs ++ ys).getD t 0 := by
  by_cases h : t < xs.length
  · rw [List.getD_append _ _ _ _ h]
  · rw [List.getD_eq_default _ _ (Nat.le_of_not_lt h)]
    exact Nat.zero_le _

theorem getD_append_lt (xs ys : List Nat) (t : Nat) (h : t < xs.length) :
    (xs ++ ys).getD t 0 = xs.getD t 0 :=
  List.getD_append _ _ _ _ h

theorem getD_set_ne (xs : List Nat) (t u v : Nat) (h : t ≠ u) :
    (xs.set t v).getD u 0 = xs.getD u 0 := by
  unfold List.getD
  rw [List.get?_eq_getElem?, List.get?_eq_getElem?, List.getElem?_set_ne h]

theorem getD_set_self (xs : List Nat) (t v : Nat) (h : t < xs.length) :
    (xs.set t v).getD t 0 = v := by
  unfold List.getD
  rw [List.get?_eq_getElem?, List.getElem?_set_eq_of_lt _ h]
  rfl

theorem getD_le_set_succ (xs : List Nat) (t u : Nat) :
    xs.getD u 0 ≤ (xs.set t (xs.getD t 0 + 1)).getD u 0 := by
  by_cases h : t = u
  · subst h
    by_cases hl : t < xs.length
    · rw [getD_set_self xs t _ hl]
      exact Nat.le_succ _
    · rw [List.set_eq_of_length_le (Nat.le_of_not_lt hl)]
  · rw [getD_set_ne xs t u _ h]

theorem getD_default_of_le (xs : List Nat) (t : Nat) (h : xs.length ≤ t) :
    xs.getD t 0 = 0 :=
  List.getD_eq_default _ _ h

theorem get?_set_ne {α : Type} (xs : List α) (l l' : Nat) (v : α) (h : l ≠ l') :
    (xs.set l v).get? l' = xs.get? l' := by
  rw [List.get?_eq_getElem?, List.get?_eq_getElem?, List.getElem?_set_ne h]

theorem get?_set_self {α : Type} (xs : List α) (l : Nat) (v : α) (h : l < xs.length) :
    (xs.set l v).get? l = some v := by
  rw [List.get?_eq_getElem?, List.getElem?_set_eq_of_lt _ h]

/-! ### Run structure: states and events along a run -/

/-- The controller state after the first `k` steps of the run of `cs` from the
initial state. -/
def stAt (P : Pipeline) (cs : List Choice) (k : Nat) : PState :=
  (runFrom P (initState P) (cs.take k)).1

/-- The event emitted by step `k` of the run of `cs` (`nop` out of range). -/
def evAt (P : Pipeline) (cs : List Choice) (k : Nat) : Event :=
  (runTrace P cs).getD k Event.nop

theorem runFrom_fst_append (P : Pipeline) (st : PState) (as bs : List Choice) :
    (runFrom P st (as ++ bs)).1 = (runFrom P (runFrom P st as).1 bs).1 := by
  induction as generalizing st with
  | nil => rfl
  | cons a as ih => simp only [List.cons_append, runFrom, List.append_eq, ih]

theorem runFrom_snd_length (P : Pipeline) (st : PState) (cs : List Choice) :
    (runFrom P st cs).2.length = cs.length := by
  induction cs generalizing st with
  | nil => rfl
  | cons c cs ih => simp only [runFrom, List.length_cons, ih]

theorem runFrom_trace_getD (P : Pipeline) (st : PState) (cs : List Choice) (k : Nat)
    (h : k < cs.length) :
    (runFrom P st cs).2.getD k Event.nop =
      (stepE P (runFrom P st (cs.take k)).1 (cs.getD k Choice.drainCheck)).2 := by
  induction cs generalizing st k with
  | nil => simp at h
  | cons c cs ih =>
      cases k with
      | zero => rfl
      | succ k =>
          simp only [List.length_cons, Nat.succ_lt_succ_iff] at h
          simpa only [runFrom, List.take_succ_cons, List.getD_cons_succ] using ih _ k h

theorem runFrom_fst_take_succ (P : Pipeline) (st : PState) (cs : List Choice) (k : Nat)
    (h : k < cs.length) :
    (runFrom P st (cs.take (k + 1))).1 =
      (stepE P (runFrom P st (cs.take k)).1 (cs.getD k Choice.drainCheck)).1 := by
  induction cs generalizing st k with
  | nil => simp at h
  | cons c cs ih =>
      cases k with
      | zero => rfl
      | succ k =>
          simp only [List.length_cons, Nat.succ_lt_succ_iff] at h
          simpa only [runFrom, List.take_succ_cons, List.getD_cons_succ] using ih _ k h

theorem stAt_succ (P : Pipeline) (cs : List Choice) (k : Nat) (h : k < cs.length) :
    stAt P cs (k + 1) = (stepE P (stAt P cs k) (cs.getD k Choice.drainCheck)).1 :=
  runFrom_fst_take_succ P (initState P) cs k h

theorem evAt_eq (P : Pipeline) (cs : List Choice) (k : Nat) (h : k < cs.length) :
    evAt P cs k = (stepE P (stAt P cs k) (cs.getD k Choice.drainCheck)).2 :=
  runFrom_trace_getD P (initState P) cs k h

theorem stAt_final (P : Pipeline) (cs : List Choice) (k : Nat) (h : cs.length ≤ k) :
    stAt P cs k = runState P cs := by
  unfold stAt runState
  rw [List.take_of_length_le h]

/-- Any property preserved by every step holds at every point of a run. -/
theorem run_preserve (P : Pipeline) (Q : PState → Prop)
    (hstep : ∀ st ch, Q st → Q (stepE P st ch).1) :
    ∀ cs st, Q st → Q (runFrom P st cs).1 := by
  intro cs
  induction cs with
  | nil => intro st h; exact h
  | cons c cs ih => intro st h; exact ih _ (hstep st c h)

/-! ### Per-step monotonicity -/

/-- Monotone data of the run: cursor, per-token progress and deferral counts
never decrease, a declared stop stays declared and freezes the cursor, and an
error never clears. -/
structure StepLe (a b : PState) : Prop where
  cursor_le : a.cursor ≤ b.cursor
  prog_le : ∀ t, a.progOf t ≤ b.progOf t
  dcnt_le : ∀ t, a.dcntOf t ≤ b.dcntOf t
  stopped_mono : a.stopped ≠ none → b.stopped ≠ none
  stopped_cursor : a.stopped ≠ none → b.cursor = a.cursor
  error_mono : a.error ≠ none → b.error ≠ none

theorem StepLe.rfl (a : PState) : StepLe a a :=
  ⟨Nat.le_refl _, fun _ => Nat.le_refl _, fun _ => Nat.le_refl _, id, fun _ => Eq.refl _, id⟩

theorem StepLe.trans {a b c : PState} (h₁ : StepLe a b) (h₂ : StepLe b c) : StepLe a c := by
  refine ⟨Nat.le_trans h₁.cursor_le h₂.cursor_le,
    fun t => Nat.le_trans (h₁.prog_le t) (h₂.prog_le t),
    fun t => Nat.le_trans (h₁.dcnt_le t) (h₂.dcnt_le t),
    fun h => h₂.stopped_mono (h₁.stopped_mono h),
    fun h => ?_, fun h => h₂.error_mono (h₁.error_mono h)⟩
  rw [h₂.stopped_cursor (h₁.stopped_mono h), h₁.stopped_cursor h]

theorem step_stepLe (P : Pipeline) (st : PState) (ch : Choice) :
    StepLe st (stepE P st ch).1 := by
  refine step_cases P st ch (fun st' _ => StepLe st st') (StepLe.rfl st) ?_ ?_ ?_ ?_ ?_
  · intro l he hl hg hch
    have hstop : st.stopped = none := by
      unfold mintGuard at hg
      simp only [Bool.and_eq_true, decide_eq_true_eq] at hg
      exact hg.1.1
    exact ⟨Nat.le_succ _, fun t => getD_append_le _ _ t, fun t => getD_append_le _ _ t,
      fun h => absurd hstop h, fun h => absurd hstop h, fun h => absurd he h⟩
  · intro l t he _ _ _
    exact ⟨Nat.le_refl _, fun _ => Nat.le_refl _, fun _ => Nat.le_refl _, id,
      fun _ => Eq.refl _, id⟩
  · intro l t he _ _
    refine applyFinish_cases P st l t (st.progOf t) _ (fun st' => StepLe st st') ?_ ?_ ?_ ?_ ?_
    · intro _ _
      exact ⟨Nat.le_refl _, fun _ => Nat.le_refl _, fun _ => Nat.le_refl _, id,
        fun _ => Eq.refl _, fun _ => by simp⟩
    · intro _
      exact ⟨Nat.le_refl _, fun _ => Nat.le_refl _, fun _ => Nat.le_refl _, id,
        fun _ => Eq.refl _, fun _ => by simp⟩
    · intro _ _
      refine ⟨Nat.le_refl _, fun u => getD_le_set_succ _ _ u, fun _ => Nat.le_refl _,
        ?_, fun _ => Eq.refl _, fun h => absurd he h⟩
      intro h
      unfold passPost
      simp only
      split
      · simp
      · exact h
    · intro _ _ _ _
      refine ⟨Nat.le_refl _, fun _ => Nat.le_refl _, fun _ => Nat.le_refl _,
        ?_, fun _ => Eq.refl _, fun _ => by simp⟩
      intro h
      simp only
      split
      · simp
      · exact h
    · intro _ _ _ _
      refine ⟨Nat.le_refl _, fun _ => Nat.le_refl _, fun _ => Nat.le_refl _,
        ?_, fun _ => Eq.refl _, fun h => absurd he h⟩
      intro h
      unfold deferPost
      simp only
      split
      · simp
      · exact h
  · intro l k r he _ _ _ _
    exact ⟨Nat.le_refl _, fun _ => Nat.le_refl _, fun u => getD_le_set_succ _ _ u, id,
      fun _ => Eq.refl _, id⟩
  · intro _ _ _
    exact ⟨Nat.le_refl _, fun _ => Nat.le_refl _, fun _ => Nat.le_refl _, id,
      fun _ => Eq.refl _, fun _ => by simp⟩

theorem run_stepLe (P : Pipeline) (cs : List Choice) (st : PState) :
    StepLe st (runFrom P st cs).1 := by
  induction cs generalizing st with
  | nil => exact StepLe.rfl st
  | cons c cs ih => exact StepLe.trans (step_stepLe P st c) (ih _)

theorem stAt_stepLe (P : Pipeline) (cs : List Choice) (k m : Nat) (h : k ≤ m) :
    StepLe (stAt P cs k) (stAt P cs m) := by
  unfold stAt
  obtain ⟨d, rfl⟩ := Nat.exists_eq_add_of_le h
  rw [List.take_add, runFrom_fst_append]
  exact run_stepLe P _ _

/-- If a run's final error is `none`, every intermediate state is error-free. -/
theorem stAt_error_none (P : Pipeline) (cs : List Choice) (k : Nat)
    (h : (runState P cs).error = none) : (stAt P cs k).error = none := by
  by_cases hk : k ≤ cs.length
  · have := (stAt_stepLe P cs k cs.length hk).error_mono
    rw [stAt_final P cs cs.length (Nat.le_refl _)] at this
    by_contra hne
    exact (this hne) h
  · rw [stAt_final P cs k (Nat.le_of_not_le hk)]
    exact h

/-! ### Residency and blocking helpers -/

theorem find?_append_none {α : Type} (l₁ l₂ : List α) (p : α → Bool)
    (h : l₁.find? p = none) : (l₁ ++ l₂).find? p = l₂.find? p := by
  induction l₁ with
  | nil => rfl
  | cons a l₁ ih =>
      cases hpa : p a
      · simp only [List.cons_append, List.find?_cons, hpa] at h ⊢
        exact ih h
      · simp only [List.find?_cons, hpa] at h
        exact Option.noConfusion h

theorem get?_some_lt {α : Type} (xs : List α) (l : Nat) (x : α)
    (h : xs.get? l = some x) : l < xs.length := by
  by_contra hl
  rw [List.get?_eq_none.mpr (Nat.le_of_not_lt hl)] at h
  exact Option.noConfusion h

theorem get?_set_cases {α : Type} (xs : List α) (l l' : Nat) (v x : α)
    (h : (xs.set l v).get? l' = some x) :
    (l' = l ∧ x = v) ∨ (l' ≠ l ∧ xs.get? l' = some x) := by
  by_cases he : l' = l
  · subst he
    by_cases hl : l' < xs.length
    · rw [get?_set_self xs l' v hl] at h
      exact Or.inl ⟨rfl, (Option.some.inj h).symm⟩
    · rw [List.set_eq_of_length_le (Nat.le_of_not_lt hl)] at h
      exact absurd (get?_some_lt _ _ _ h) hl
  · refine Or.inr ⟨he, ?_⟩
    rwa [get?_set_ne xs l l' v (Ne.symm he)] at h

theorem getD_snoc (xs : List Nat) (a t : Nat) :
    (xs ++ [a]).getD t 0 =
      if t < xs.length then xs.getD t 0 else if t = xs.length then a else 0 := by
  by_cases h1 : t < xs.length
  · rw [if_pos h1, getD_append_lt _ _ _ h1]
  · rw [if_neg h1]
    rw [List.getD_append_right _ _ _ _ (Nat.le_of_not_lt h1)]
    by_cases h2 : t = xs.length
    · rw [if_pos h2, h2]
      simp
    · rw [if_neg h2]
      have : 1 ≤ t - xs.length := by omega
      exact List.getD_eq_default _ _ (by simpa using this)

theorem resident_holding_iff (u t : Nat) :
    (LaneState.holding u).resident t = true ↔ u = t := by
  simp [LaneState.resident]

theorem resident_executing_iff (u t : Nat) :
    (LaneState.executing u).resident t = true ↔ u = t := by
  simp [LaneState.resident]

theorem resident_idle (t : Nat) : LaneState.idle.resident t = false := rfl

theorem isBlocked_iff (st : PState) (t : Nat) :
    st.isBlocked t = true ↔ ∃ r ∈ st.blocked, r.token = t := by
  simp [PState.isBlocked, List.any_eq_true]

theorem isBlocked_false_iff (st : PState) (t : Nat) :
    st.isBlocked t = false ↔ ∀ r ∈ st.blocked, r.token ≠ t := by
  rw [← Bool.not_eq_true, isBlocked_iff]
  push_neg
  rfl

theorem gate_ordered {P : Pipeline} {st : PState} {t s : Nat}
    (hk : P.kindAt s = StageKind.ordered) (hg : gate P st t s = true) :
    ∀ u, u < t → s < st.progOf u ∨ st.isBlocked u = true := by
  unfold gate at hg
  rw [hk] at hg
  intro u hu
  have := List.all_eq_true.mp hg u (List.mem_range.mpr hu)
  simpa [Bool.or_eq_true, decide_eq_true_eq] using this

theorem mintGuard_spec {P : Pipeline} {st : PState} (hg : mintGuard P st = true) :
    st.stopped = none ∧ 0 < P.numStages ∧ gate P st st.cursor 0 = true := by
  unfold mintGuard at hg
  simp only [Bool.and_eq_true, decide_eq_true_eq] at hg
  exact ⟨hg.1.1, hg.1.2, hg.2⟩

theorem resumeGuard_spec {P : Pipeline} {st : PState} {r : BlockedRec}
    (hg : resumeGuard P st r = true) :
    (∀ d ∈ r.blockers, r.stage < st.progOf d) ∧ gate P st r.token r.stage = true := by
  unfold resumeGuard at hg
  simp only [Bool.and_eq_true, List.all_eq_true] at hg
  refine ⟨fun d hd => ?_, hg.2⟩
  have := hg.1 d hd
  simpa [PState.clearedFor] using this

/-! ### The controller invariant -/

/-- Structural invariant of every reachable controller state: per-token maps
have length `cursor`; progress never exceeds the stage count; every lane
resident and deferral-graph entry refers to a minted, uncompleted token; a
deferral-graph entry sits at its token's current stage, never blocks itself and
has a non-empty blocking set; lane residents are never simultaneously in the
deferral graph; no token resides in two lanes; deferral-graph tokens are
distinct; every minted uncompleted token is resident in a lane or deferred; a
held (between-stages) token has passed at least one stage; and while a token's
first stage-0 invocation is in flight on an ordered stage 0, the cursor is one
past that token (mint serialization). -/
structure Inv (P : Pipeline) (st : PState) : Prop where
  progLen : st.prog.length = st.cursor
  dcntLen : st.dcnt.length = st.cursor
  progLe : ∀ t, st.progOf t ≤ P.numStages
  resMinted : ∀ l ls, st.lanes.get? l = some ls → ∀ t, ls.resident t = true →
    t < st.cursor ∧ st.progOf t < P.numStages
  blkRec : ∀ r ∈ st.blocked, r.token < st.cursor ∧ r.stage = st.progOf r.token ∧
    st.progOf r.token < P.numStages ∧ r.token ∉ r.blockers ∧ r.blockers ≠ []
  laneBlkDisj : ∀ l ls, st.lanes.get? l = some ls → ∀ t, ls.resident t = true →
    st.isBlocked t = false
  laneLaneDisj : ∀ l₁ l₂ ls₁ ls₂ t, st.lanes.get? l₁ = some ls₁ →
    st.lanes.get? l₂ = some ls₂ → ls₁.resident t = true → ls₂.resident t = true → l₁ = l₂
  blkNodup : (st.blocked.map (fun r => r.token)).Nodup
  present : ∀ t, t < st.cursor → st.progOf t < P.numStages →
    (∃ l ls, st.lanes.get? l = some ls ∧ ls.resident t = true) ∨ st.isBlocked t = true
  holdingPos : ∀ l t, st.lanes.get? l = some (LaneState.holding t) → 1 ≤ st.progOf t
  mintSerial : P.kindAt 0 = StageKind.ordered → ∀ l t,
    st.lanes.get? l = some (LaneState.executing t) → st.progOf t = 0 → st.dcntOf t = 0 →
    st.cursor = t + 1

theorem inv_init (P : Pipeline) : Inv P (initState P) := by
  refine ⟨rfl, rfl, fun t => Nat.zero_le _, ?_, ?_, ?_, ?_, ?_, ?_, ?_, ?_⟩
  · intro l ls h t ht
    have hmem := List.get?_mem h
    rw [List.eq_of_mem_replicate hmem] at ht
    exact absurd ht (by simp [resident_idle])
  · intro r hr
    exact absurd hr (List.not_mem_nil r)
  · intro l ls h t ht
    have hmem := List.get?_mem h
    rw [List.eq_of_mem_replicate hmem] at ht
    exact absurd ht (by simp [resident_idle])
  · intro l₁ l₂ ls₁ ls₂ t h₁ h₂ ht₁ ht₂
    have hmem := List.get?_mem h₁
    rw [List.eq_of_mem_replicate hmem] at ht₁
    exact absurd ht₁ (by simp [resident_idle])
  · simp [initState]
  · intro t ht
    exact absurd ht (Nat.not_lt_zero t)
  · intro l t h
    have hmem := List.get?_mem h
    exact absurd (List.eq_of_mem_replicate hmem) (by simp)
  · intro _ l t h
    have hmem := List.get?_mem h
    exact absurd (List.eq_of_mem_replicate hmem) (by simp)

section PostSimp

variable (P : Pipeline) (st : PState) (l t u : Nat) (r : BlockedRec)

theorem getD_snoc_zero (xs : List Nat) (u : Nat) :
    (xs ++ [0]).getD u 0 = xs.getD u 0 := by
  rw [getD_snoc]
  by_cases h1 : u < xs.length
  · rw [if_pos h1]
  · rw [if_neg h1, getD_default_of_le xs u (Nat.le_of_not_lt h1)]
    by_cases h2 : u = xs.length
    · rw [if_pos h2]
    · rw [if_neg h2]

@[simp] theorem startPost_lanes :
    (startPost st l t).lanes = st.lanes.set l (LaneState.executing t) := rfl
@[simp] theorem startPost_cursor : (startPost st l t).cursor = st.cursor := rfl
@[simp] theorem startPost_blocked : (startPost st l t).blocked = st.blocked := rfl
@[simp] theorem startPost_stopped : (startPost st l t).stopped = st.stopped := rfl
@[simp] theorem startPost_error : (startPost st l t).error = st.error := rfl
@[simp] theorem startPost_progOf : (startPost st l t).progOf u = st.progOf u := rfl
@[simp] theorem startPost_dcntOf : (startPost st l t).dcntOf u = st.dcntOf u := rfl
@[simp] theorem startPost_isBlocked :
    (startPost st l t).isBlocked u = st.isBlocked u := rfl
@[simp] theorem startPost_proglen : (startPost st l t).prog = st.prog := rfl
@[simp] theorem startPost_dcnt : (startPost st l t).dcnt = st.dcnt := rfl

@[simp] theorem mintPost_lanes :
    (mintPost st l).lanes = st.lanes.set l (LaneState.executing st.cursor) := rfl
@[simp] theorem mintPost_cursor : (mintPost st l).cursor = st.cursor + 1 := rfl
@[simp] theorem mintPost_blocked : (mintPost st l).blocked = st.blocked := rfl
@[simp] theorem mintPost_stopped : (mintPost st l).stopped = st.stopped := rfl
@[simp] theorem mintPost_error : (mintPost st l).error = st.error := rfl
@[simp] theorem mintPost_prog : (mintPost st l).prog = st.prog ++ [0] := rfl
@[simp] theorem mintPost_dcnt : (mintPost st l).dcnt = st.dcnt ++ [0] := rfl
@[simp] theorem mintPost_progOf : (mintPost st l).progOf u = st.progOf u :=
  getD_snoc_zero st.prog u
@[simp] theorem mintPost_dcntOf : (mintPost st l).dcntOf u = st.dcntOf u :=
  getD_snoc_zero st.dcnt u
@[simp] theorem mintPost_isBlocked :
    (mintPost st l).isBlocked u = st.isBlocked u := rfl

@[simp] theorem resumePost_lanes :
    (resumePost st l r).lanes = st.lanes.set l (LaneState.executing r.token) := rfl
@[simp] theorem resumePost_cursor : (resumePost st l r).cursor = st.cursor := rfl
@[simp] theorem resumePost_blocked :
    (resumePost st l r).blocked = st.blocked.filter (fun r' => r'.token != r.token) := rfl
@[simp] theorem resumePost_stopped : (resumePost st l r).stopped = st.stopped := rfl
@[simp] theorem resumePost_error : (resumePost st l r).error = st.error := rfl
@[simp] theorem resumePost_prog : (resumePost st l r).prog = st.prog := rfl
@[simp] theorem resumePost_progOf : (resumePost st l r).progOf u = st.progOf u := rfl
@[simp] theorem resumePost_dcnt :
    (resumePost st l r).dcnt = st.dcnt.set r.token (st.dcntOf r.token + 1) := rfl

theorem resumePost_dcntOf_ne (h : u ≠ r.token) :
    (resumePost st l r).dcntOf u = st.dcntOf u :=
  getD_set_ne _ _ _ _ (fun he => h he.symm)

theorem resumePost_dcntOf_self (h : r.token < st.dcnt.length) :
    (resumePost st l r).dcntOf r.token = st.dcntOf r.token + 1 :=
  getD_set_self _ _ _ h

theorem resumePost_isBlocked_self :
    (resumePost st l r).isBlocked r.token = false := by
  rw [isBlocked_false_iff]
  intro r' hr'
  have := List.of_mem_filter hr'
  simpa using this

theorem resumePost_isBlocked_of (h : (resumePost st l r).isBlocked u = true) :
    st.isBlocked u = true := by
  rw [isBlocked_iff] at h ⊢
  obtain ⟨r', hr', he⟩ := h
  exact ⟨r', List.mem_of_mem_filter hr', he⟩

theorem resumePost_isBlocked_ne (h : u ≠ r.token) (hb : st.isBlocked u = true) :
    (resumePost st l r).isBlocked u = true := by
  rw [isBlocked_iff] at hb ⊢
  obtain ⟨r', hr', he⟩ := hb
  refine ⟨r', List.mem_filter.mpr ⟨hr', ?_⟩, he⟩
  simp only [bne_iff_ne, ne_eq]
  rw [he]
  exact h

@[simp] theorem passPost_lanes (s : Nat) (stp : Bool) :
    (passPost P st l t s stp).lanes = st.lanes.set l
      (if s + 1 = P.numStages then LaneState.idle else LaneState.holding t) := rfl
@[simp] theorem passPost_cursor (s : Nat) (stp : Bool) :
    (passPost P st l t s stp).cursor = st.cursor := rfl
@[simp] theorem passPost_blocked (s : Nat) (stp : Bool) :
    (passPost P st l t s stp).blocked = st.blocked := rfl
@[simp] theorem passPost_error (s : Nat) (stp : Bool) :
    (passPost P st l t s stp).error = st.error := rfl
@[simp] theorem passPost_prog (s : Nat) (stp : Bool) :
    (passPost P st l t s stp).prog = st.prog.set t (s + 1) := rfl
@[simp] theorem passPost_dcnt (s : Nat) (stp : Bool) :
    (passPost P st l t s stp).dcnt = st.dcnt := rfl
@[simp] theorem passPost_dcntOf (s : Nat) (stp : Bool) :
    (passPost P st l t s stp).dcntOf u = st.dcntOf u := rfl
@[simp] theorem passPost_isBlocked (s : Nat) (stp : Bool) :
    (passPost P st l t s stp).isBlocked u = st.isBlocked u := rfl
theorem passPost_stopped (s : Nat) (stp : Bool) :
    (passPost P st l t s stp).stopped = if stp then some t else st.stopped := rfl

@[simp] theorem deferPost_lanes (s : Nat) (D : List Nat) (stp : Bool) :
    (deferPost st l t s D stp).lanes = st.lanes.set l LaneState.idle := rfl
@[simp] theorem deferPost_cursor (s : Nat) (D : List Nat) (stp : Bool) :
    (deferPost st l t s D stp).cursor = st.cursor := rfl
@[simp] theorem deferPost_blocked (s : Nat) (D : List Nat) (stp : Bool) :
    (deferPost st l t s D stp).blocked = st.blocked ++ [⟨t, s, D⟩] := rfl
@[simp] theorem deferPost_error (s : Nat) (D : List Nat) (stp : Bool) :
    (deferPost st l t s D stp).error = st.error := rfl
@[simp] theorem deferPost_prog (s : Nat) (D : List Nat) (stp : Bool) :
    (deferPost st l t s D stp).prog = st.prog := rfl
@[simp] theorem deferPost_progOf (s : Nat) (D : List Nat) (stp : Bool) :
    (deferPost st l t s D stp).progOf u = st.progOf u := rfl
@[simp] theorem deferPost_dcnt (s : Nat) (D : List Nat) (stp : Bool) :
    (deferPost st l t s D stp).dcnt = st.dcnt := rfl
@[simp] theorem deferPost_dcntOf (s : Nat) (D : List Nat) (stp : Bool) :
    (deferPost st l t s D stp).dcntOf u = st.dcntOf u := rfl
theorem deferPost_stopped (s : Nat) (D : List Nat) (stp : Bool) :
    (deferPost st l t s D stp).stopped = if stp then some t else st.stopped := rfl

theorem deferPost_isBlocked (s : Nat) (D : List Nat) (stp : Bool) :
    (deferPost st l t s D stp).isBlocked u = (st.isBlocked u || decide (t = u)) := by
  simp [PState.isBlocked, deferPost, List.any_append]

end PostSimp

theorem inv_cfg {P : Pipeline} {st : PState} (h : Inv P st) (o : Option Nat)
    (e : Option Err) : Inv P { st with stopped := o, error := e } :=
  ⟨h.progLen, h.dcntLen, h.progLe, h.resMinted, h.blkRec, h.laneBlkDisj, h.laneLaneDisj,
   h.blkNodup, h.present, h.holdingPos, h.mintSerial⟩

theorem inv_start {P : Pipeline} {st : PState} {l t : Nat} (h : Inv P st)
    (hl : st.lanes.get? l = some (LaneState.holding t)) :
    Inv P (startPost st l t) := by
  have hllen : l < st.lanes.length := get?_some_lt _ _ _ hl
  have hresh : (LaneState.holding t).resident t = true := (resident_holding_iff t t).mpr rfl
  refine ⟨h.progLen, h.dcntLen, h.progLe, ?_, h.blkRec, ?_, ?_, h.blkNodup, ?_, ?_, ?_⟩
  · intro l' ls' h' u hu
    simp only [startPost_lanes] at h'
    rcases get?_set_cases _ _ _ _ _ h' with ⟨heq, hveq⟩ | ⟨hne, hold⟩
    · subst hveq
      have hut := (resident_executing_iff t u).mp hu
      subst hut
      exact h.resMinted l _ hl t hresh
    · exact h.resMinted l' ls' hold u hu
  · intro l' ls' h' u hu
    simp only [startPost_lanes] at h'
    simp only [startPost_isBlocked]
    rcases get?_set_cases _ _ _ _ _ h' with ⟨heq, hveq⟩ | ⟨hne, hold⟩
    · subst hveq
      have hut := (resident_executing_iff t u).mp hu
      subst hut
      exact h.laneBlkDisj l _ hl t hresh
    · exact h.laneBlkDisj l' ls' hold u hu
  · intro l₁ l₂ ls₁ ls₂ u h₁ h₂ hu₁ hu₂
    simp only [startPost_lanes] at h₁ h₂
    rcases get?_set_cases _ _ _ _ _ h₁ with ⟨heq₁, hveq₁⟩ | ⟨hne₁, hold₁⟩ <;>
      rcases get?_set_cases _ _ _ _ _ h₂ with ⟨heq₂, hveq₂⟩ | ⟨hne₂, hold₂⟩
    · rw [heq₁, heq₂]
    · subst hveq₁
      have hut := (resident_executing_iff t u).mp hu₁
      subst hut
      rw [heq₁]
      exact h.laneLaneDisj l l₂ _ ls₂ t hl hold₂ hresh hu₂
    · subst hveq₂
      have hut := (resident_executing_iff t u).mp hu₂
      subst hut
      rw [heq₂]
      exact (h.laneLaneDisj l₁ l _ _ t hold₁ hl hu₁ hresh).symm ▸
        (h.laneLaneDisj l₁ l _ _ t hold₁ hl hu₁ hresh)
    · exact h.laneLaneDisj l₁ l₂ ls₁ ls₂ u hold₁ hold₂ hu₁ hu₂
  · intro u hu hp
    simp only [startPost_cursor] at hu
    simp only [startPost_progOf] at hp
    simp only [startPost_lanes, startPost_isBlocked]
    rcases h.present u hu hp with ⟨l'', ls'', h'', hres⟩ | hb
    · by_cases he : l'' = l
      · subst he
        rw [hl] at h''
        have hls := Option.some.inj h''
        subst hls
        refine Or.inl ⟨l'', LaneState.executing t, get?_set_self _ _ _ hllen, ?_⟩
        exact (resident_executing_iff t u).mpr ((resident_holding_iff t u).mp hres)
      · exact Or.inl ⟨l'', ls'', by rw [get?_set_ne _ _ _ _ (Ne.symm he)]; exact h'', hres⟩
    · exact Or.inr hb
  · intro l' u h'
    simp only [startPost_lanes] at h'
    simp only [startPost_progOf]
    rcases get?_set_cases _ _ _ _ _ h' with ⟨heq, hveq⟩ | ⟨hne, hold⟩
    · exact absurd hveq (by simp)
    · exact h.holdingPos l' u hold
  · intro hk l' u h' hp0 hd0
    simp only [startPost_lanes] at h'
    simp only [startPost_progOf] at hp0
    simp only [startPost_dcntOf] at hd0
    simp only [startPost_cursor]
    rcases get?_set_cases _ _ _ _ _ h' with ⟨heq, hveq⟩ | ⟨hne, hold⟩
    · have hut : u = t := LaneState.executing.inj hveq
      subst hut
      have := h.holdingPos l u hl
      omega
    · exact h.mintSerial hk l' u hold hp0 hd0

theorem inv_resume {P : Pipeline} {st : PState} {l : Nat} {r : BlockedRec} (h : Inv P st)
    (hl : st.lanes.get? l = some LaneState.idle) (hr : r ∈ st.blocked) :
    Inv P (resumePost st l r) := by
  have hllen : l < st.lanes.length := get?_some_lt _ _ _ hl
  obtain ⟨hrtc, hrst, hrpr, hrself, hrne⟩ := h.blkRec r hr
  have hrb : st.isBlocked r.token = true := (isBlocked_iff st r.token).mpr ⟨r, hr, rfl⟩
  have hdl : r.token < st.dcnt.length := by rw [h.dcntLen]; exact hrtc
  refine ⟨h.progLen, by simp [h.dcntLen], h.progLe, ?_, ?_, ?_, ?_, ?_, ?_, ?_, ?_⟩
  · intro l' ls' h' u hu
    simp only [resumePost_lanes] at h'
    simp only [resumePost_cursor, resumePost_progOf]
    rcases get?_set_cases _ _ _ _ _ h' with ⟨heq, hveq⟩ | ⟨hne, hold⟩
    · subst hveq
      have hut := (resident_executing_iff _ u).mp hu
      subst hut
      exact ⟨hrtc, hrpr⟩
    · exact h.resMinted l' ls' hold u hu
  · intro r' hr'
    simp only [resumePost_blocked] at hr'
    exact h.blkRec r' (List.mem_of_mem_filter hr')
  · intro l' ls' h' u hu
    simp only [resumePost_lanes] at h'
    rcases get?_set_cases _ _ _ _ _ h' with ⟨heq, hveq⟩ | ⟨hne, hold⟩
    · subst hveq
      have hut := (resident_executing_iff _ u).mp hu
      subst hut
      exact resumePost_isBlocked_self st l r
    · by_cases hue : u = r.token
      · have hx := h.laneBlkDisj l' ls' hold u hu
        rw [hue] at hx
        rw [hx] at hrb
        exact absurd hrb (by simp)
      · by_contra hcon
        have hcon' : (resumePost st l r).isBlocked u = true := by
          cases hx : (resumePost st l r).isBlocked u
          · exact absurd hx hcon
          · rfl
        have := resumePost_isBlocked_of st l u r hcon'
        rw [h.laneBlkDisj l' ls' hold u hu] at this
        exact absurd this (by simp)
  · intro l₁ l₂ ls₁ ls₂ u h₁ h₂ hu₁ hu₂
    simp only [resumePost_lanes] at h₁ h₂
    rcases get?_set_cases _ _ _ _ _ h₁ with ⟨heq₁, hveq₁⟩ | ⟨hne₁, hold₁⟩ <;>
      rcases get?_set_cases _ _ _ _ _ h₂ with ⟨heq₂, hveq₂⟩ | ⟨hne₂, hold₂⟩
    · rw [heq₁, heq₂]
    · subst hveq₁
      have hut := (resident_executing_iff _ u).mp hu₁
      subst hut
      have := h.laneBlkDisj l₂ ls₂ hold₂ r.token hu₂
      rw [this] at hrb
      exact absurd hrb (by simp)
    · subst hveq₂
      have hut := (resident_executing_iff _ u).mp hu₂
      subst hut
      have := h.laneBlkDisj l₁ ls₁ hold₁ r.token hu₁
      rw [this] at hrb
      exact absurd hrb (by simp)
    · exact h.laneLaneDisj l₁ l₂ ls₁ ls₂ u hold₁ hold₂ hu₁ hu₂
  · simp only [resumePost_blocked]
    exact h.blkNodup.sublist (List.Sublist.map _ (List.filter_sublist _))
  · intro u hu hp
    simp only [resumePost_cursor] at hu
    simp only [resumePost_progOf] at hp
    simp only [resumePost_lanes]
    by_cases he : u = r.token
    · exact Or.inl ⟨l, LaneState.executing r.token, get?_set_self _ _ _ hllen,
        (resident_executing_iff r.token u).mpr he.symm⟩
    · rcases h.present u hu hp with ⟨l'', ls'', h'', hres⟩ | hb
      · by_cases hel : l'' = l
        · subst hel
          rw [hl] at h''
          have := Option.some.inj h''
          subst this
          exact absurd hres (by simp [resident_idle])
        · exact Or.inl ⟨l'', ls'', by rw [get?_set_ne _ _ _ _ (Ne.symm hel)]; exact h'', hres⟩
      · exact Or.inr (resumePost_isBlocked_ne st l u r he hb)
  · intro l' u h'
    simp only [resumePost_lanes] at h'
    simp only [resumePost_progOf]
    rcases get?_set_cases _ _ _ _ _ h' with ⟨heq, hveq⟩ | ⟨hne, hold⟩
    · exact absurd hveq (by simp)
    · exact h.holdingPos l' u hold
  · intro hk l' u h' hp0 hd0
    simp only [resumePost_lanes] at h'
    simp only [resumePost_progOf] at hp0
    simp only [resumePost_cursor]
    rcases get?_set_cases _ _ _ _ _ h' with ⟨heq, hveq⟩ | ⟨hne, hold⟩
    · have hut : u = r.token := LaneState.executing.inj hveq
      rw [hut] at hd0
      rw [resumePost_dcntOf_self st l r hdl] at hd0
      omega
    · have hut : u ≠ r.token := by
        intro he
        have hx := h.laneBlkDisj l' _ hold u ((resident_executing_iff u u).mpr rfl)
        rw [he] at hx
        rw [hx] at hrb
        exact absurd hrb (by simp)
      rw [resumePost_dcntOf_ne st l u r hut] at hd0
      exact h.mintSerial hk l' u hold hp0 hd0

theorem inv_mint {P : Pipeline} {st : PState} {l : Nat} (h : Inv P st)
    (hl : st.lanes.get? l = some LaneState.idle) (hg : mintGuard P st = true) :
    Inv P (mintPost st l) := by
  obtain ⟨hstop, hS, hgate⟩ := mintGuard_spec hg
  have hllen : l < st.lanes.length := get?_some_lt _ _ _ hl
  have hcprog : st.progOf st.cursor = 0 :=
    getD_default_of_le _ _ (Nat.le_of_eq h.progLen)
  refine ⟨?_, ?_, ?_, ?_, ?_, ?_, ?_, h.blkNodup, ?_, ?_, ?_⟩
  · simp [h.progLen]
  · simp [h.dcntLen]
  · intro u
    rw [mintPost_progOf]
    exact h.progLe u
  · intro l' ls' h' u hu
    simp only [mintPost_lanes] at h'
    simp only [mintPost_cursor, mintPost_progOf]
    rcases get?_set_cases _ _ _ _ _ h' with ⟨heq, hveq⟩ | ⟨hne, hold⟩
    · subst hveq
      have hut := (resident_executing_iff _ u).mp hu
      refine ⟨by omega, ?_⟩
      rw [← hut, hcprog]
      exact hS
    · obtain ⟨h1, h2⟩ := h.resMinted l' ls' hold u hu
      exact ⟨Nat.lt_succ_of_lt h1, h2⟩
  · intro r hr
    simp only [mintPost_blocked] at hr
    obtain ⟨h1, h2, h3, h4, h5⟩ := h.blkRec r hr
    refine ⟨Nat.lt_succ_of_lt h1, ?_, ?_, h4, h5⟩
    · rw [mintPost_progOf]
      exact h2
    · rw [mintPost_progOf]
      exact h3
  · intro l' ls' h' u hu
    simp only [mintPost_lanes] at h'
    simp only [mintPost_isBlocked]
    rcases get?_set_cases _ _ _ _ _ h' with ⟨heq, hveq⟩ | ⟨hne, hold⟩
    · subst hveq
      have hut := (resident_executing_iff _ u).mp hu
      rw [isBlocked_false_iff]
      intro r hr
      have := (h.blkRec r hr).1
      omega
    · exact h.laneBlkDisj l' ls' hold u hu
  · intro l₁ l₂ ls₁ ls₂ u h₁ h₂ hu₁ hu₂
    simp only [mintPost_lanes] at h₁ h₂
    rcases get?_set_cases _ _ _ _ _ h₁ with ⟨heq₁, hveq₁⟩ | ⟨hne₁, hold₁⟩ <;>
      rcases get?_set_cases _ _ _ _ _ h₂ with ⟨heq₂, hveq₂⟩ | ⟨hne₂, hold₂⟩
    · rw [heq₁, heq₂]
    · subst hveq₁
      have hut := (resident_executing_iff _ u).mp hu₁
      have := (h.resMinted l₂ ls₂ hold₂ u hu₂).1
      omega
    · subst hveq₂
      have hut := (resident_executing_iff _ u).mp hu₂
      have := (h.resMinted l₁ ls₁ hold₁ u hu₁).1
      omega
    · exact h.laneLaneDisj l₁ l₂ ls₁ ls₂ u hold₁ hold₂ hu₁ hu₂
  · intro u hu hp
    simp only [mintPost_cursor] at hu
    simp only [mintPost_progOf] at hp
    simp only [mintPost_lanes, mintPost_isBlocked]
    by_cases hue : u = st.cursor
    · refine Or.inl ⟨l, LaneState.executing st.cursor, get?_set_self _ _ _ hllen, ?_⟩
      exact (resident_executing_iff _ u).mpr hue.symm
    · have hu' : u < st.cursor := by omega
      rcases h.present u hu' hp with ⟨l'', ls'', h'', hres'⟩ | hb
      · by_cases hel : l'' = l
        · subst hel
          rw [hl] at h''
          have := Option.some.inj h''
          subst this
          exact absurd hres' (by simp [resident_idle])
        · refine Or.inl ⟨l'', ls'', ?_, hres'⟩
          rw [get?_set_ne _ _ _ _ (Ne.symm hel)]
          exact h''
      · exact Or.inr hb
  · intro l' u h'
    simp only [mintPost_lanes] at h'
    simp only [mintPost_progOf]
    rcases get?_set_cases _ _ _ _ _ h' with ⟨heq, hveq⟩ | ⟨hne, hold⟩
    · exact absurd hveq (by simp)
    · exact h.holdingPos l' u hold
  · intro hk l' u h' hp0 hd0
    simp only [mintPost_lanes] at h'
    simp only [mintPost_progOf] at hp0
    simp only [mintPost_dcntOf] at hd0
    simp only [mintPost_cursor]
    rcases get?_set_cases _ _ _ _ _ h' with ⟨heq, hveq⟩ | ⟨hne, hold⟩
    · have hut : u = st.cursor := LaneState.executing.inj hveq
      omega
    · have hresu : (LaneState.executing u).resident u = true :=
        (resident_executing_iff u u).mpr rfl
      have hu := h.resMinted l' _ hold u hresu
      rcases gate_ordered hk hgate u hu.1 with hgt | hbl
      · rw [hp0] at hgt
        omega
      · rw [h.laneBlkDisj l' _ hold u hresu] at hbl
        exact absurd hbl (by simp)

theorem inv_pass {P : Pipeline} {st : PState} {l t : Nat} (h : Inv P st)
    (hl : st.lanes.get? l = some (LaneState.executing t)) (stp : Bool) :
    Inv P (passPost P st l t (st.progOf t) stp) := by
  have hllen : l < st.lanes.length := get?_some_lt _ _ _ hl
  have hres : (LaneState.executing t).resident t = true := (resident_executing_iff t t).mpr rfl
  obtain ⟨htc, hts⟩ := h.resMinted l _ hl t hres
  have htpl : t < st.prog.length := by rw [h.progLen]; exact htc
  have hblk : st.isBlocked t = false := h.laneBlkDisj l _ hl t hres
  have hothers : ∀ l' ls', l' ≠ l → st.lanes.get? l' = some ls' →
      ∀ u, ls'.resident u = true → u ≠ t := by
    intro l' ls' hne hold u hu he
    rw [he] at hu
    exact hne (h.laneLaneDisj l' l ls' _ t hold hl hu hres)
  have hps : ∀ u, u ≠ t → (passPost P st l t (st.progOf t) stp).progOf u = st.progOf u :=
    fun u hu => getD_set_ne _ _ _ _ (fun he => hu he.symm)
  have hpt : (passPost P st l t (st.progOf t) stp).progOf t = st.progOf t + 1 :=
    getD_set_self _ _ _ htpl
  refine ⟨?_, h.dcntLen, ?_, ?_, ?_, ?_, ?_, h.blkNodup, ?_, ?_, ?_⟩
  · simp [h.progLen]
  · intro u
    by_cases hu : u = t
    · rw [hu, hpt]
      omega
    · rw [hps u hu]
      exact h.progLe u
  · intro l' ls' h' u hu
    simp only [passPost_lanes] at h'
    simp only [passPost_cursor]
    rcases get?_set_cases _ _ _ _ _ h' with ⟨heq, hveq⟩ | ⟨hne, hold⟩
    · by_cases hlast : st.progOf t + 1 = P.numStages
      · rw [if_pos hlast] at hveq
        subst hveq
        exact absurd hu (by simp [resident_idle])
      · rw [if_neg hlast] at hveq
        subst hveq
        have hut := (resident_holding_iff t u).mp hu
        refine ⟨?_, ?_⟩
        · rw [← hut]
          exact htc
        · rw [← hut, hpt]
          omega
    · have hut := hothers l' ls' hne hold u hu
      rw [hps u hut]
      exact h.resMinted l' ls' hold u hu
  · intro r hr
    simp only [passPost_blocked] at hr
    obtain ⟨h1, h2, h3, h4, h5⟩ := h.blkRec r hr
    have hrt : r.token ≠ t := by
      rw [isBlocked_false_iff] at hblk
      exact hblk r hr
    refine ⟨h1, ?_, ?_, h4, h5⟩
    · rw [hps r.token hrt]
      exact h2
    · rw [hps r.token hrt]
      exact h3
  · intro l' ls' h' u hu
    simp only [passPost_lanes] at h'
    simp only [passPost_isBlocked]
    rcases get?_set_cases _ _ _ _ _ h' with ⟨heq, hveq⟩ | ⟨hne, hold⟩
    · by_cases hlast : st.progOf t + 1 = P.numStages
      · rw [if_pos hlast] at hveq
        subst hveq
        exact absurd hu (by simp [resident_idle])
      · rw [if_neg hlast] at hveq
        subst hveq
        have hut := (resident_holding_iff t u).mp hu
        rw [← hut]
        exact hblk
    · exact h.laneBlkDisj l' ls' hold u hu
  · intro l₁ l₂ ls₁ ls₂ u h₁ h₂ hu₁ hu₂
    simp only [passPost_lanes] at h₁ h₂
    rcases get?_set_cases _ _ _ _ _ h₁ with ⟨heq₁, hveq₁⟩ | ⟨hne₁, hold₁⟩ <;>
      rcases get?_set_cases _ _ _ _ _ h₂ with ⟨heq₂, hveq₂⟩ | ⟨hne₂, hold₂⟩
    · rw [heq₁, heq₂]
    · by_cases hlast : st.progOf t + 1 = P.numStages
      · rw [if_pos hlast] at hveq₁
        subst hveq₁
        exact absurd hu₁ (by simp [resident_idle])
      · rw [if_neg hlast] at hveq₁
        subst hveq₁
        have hut := (resident_holding_iff t u).mp hu₁
        exact absurd hut.symm (hothers l₂ ls₂ hne₂ hold₂ u hu₂)
    · by_cases hlast : st.progOf t + 1 = P.numStages
      · rw [if_pos hlast] at hveq₂
        subst hveq₂
        exact absurd hu₂ (by simp [resident_idle])
      · rw [if_neg hlast] at hveq₂
        subst hveq₂
        have hut := (resident_holding_iff t u).mp hu₂
        exact absurd hut.symm (hothers l₁ ls₁ hne₁ hold₁ u hu₁)
    · exact h.laneLaneDisj l₁ l₂ ls₁ ls₂ u hold₁ hold₂ hu₁ hu₂
  · intro u hu hp
    simp only [passPost_cursor] at hu
    by_cases hue : u = t
    · rw [hue] at hp ⊢
      rw [hpt] at hp
      have hlast : ¬(st.progOf t + 1 = P.numStages) := by omega
      refine Or.inl ⟨l, LaneState.holding t, ?_, (resident_holding_iff t t).mpr rfl⟩
      simp only [passPost_lanes]
      rw [if_neg hlast]
      exact get?_set_self _ _ _ hllen
    · rw [hps u hue] at hp
      rcases h.present u hu hp with ⟨l'', ls'', h'', hres'⟩ | hb
      · by_cases hel : l'' = l
        · subst hel
          rw [hl] at h''
          have := Option.some.inj h''
          subst this
          exact absurd ((resident_executing_iff t u).mp hres') (fun he => hue he.symm)
        · refine Or.inl ⟨l'', ls'', ?_, hres'⟩
          simp only [passPost_lanes]
          rw [get?_set_ne _ _ _ _ (Ne.symm hel)]
          exact h''
      · refine Or.inr ?_
        rw [passPost_isBlocked]
        exact hb
  · intro l' u h'
    simp only [passPost_lanes] at h'
    rcases get?_set_cases _ _ _ _ _ h' with ⟨heq, hveq⟩ | ⟨hne, hold⟩
    · by_cases hlast : st.progOf t + 1 = P.numStages
      · rw [if_pos hlast] at hveq
        exact absurd hveq (by simp)
      · rw [if_neg hlast] at hveq
        have hut := LaneState.holding.inj hveq
        rw [hut, hpt]
        omega
    · have hut := hothers l' _ hne hold u ((resident_holding_iff u u).mpr rfl)
      rw [hps u hut]
      exact h.holdingPos l' u hold
  · intro hk l' u h' hp0 hd0
    simp only [passPost_lanes] at h'
    simp only [passPost_cursor]
    rcases get?_set_cases _ _ _ _ _ h' with ⟨heq, hveq⟩ | ⟨hne, hold⟩
    · by_cases hlast : st.progOf t + 1 = P.numStages
      · rw [if_pos hlast] at hveq
        exact absurd hveq (by simp)
      · rw [if_neg hlast] at hveq
        exact absurd hveq (by simp)
    · have hut := hothers l' _ hne hold u ((resident_executing_iff u u).mpr rfl)
      rw [hps u hut] at hp0
      exact h.mintSerial hk l' u hold hp0 hd0

theorem inv_defer {P : Pipeline} {st : PState} {l t : Nat} {D : List Nat} (h : Inv P st)
    (hl : st.lanes.get? l = some (LaneState.executing t)) (hself : t ∉ D)
    (hD : D ≠ []) (stp : Bool) :
    Inv P (deferPost st l t (st.progOf t) D stp) := by
  have hllen : l < st.lanes.length := get?_some_lt _ _ _ hl
  have hres : (LaneState.executing t).resident t = true := (resident_executing_iff t t).mpr rfl
  obtain ⟨htc, hts⟩ := h.resMinted l _ hl t hres
  have hblk : st.isBlocked t = false := h.laneBlkDisj l _ hl t hres
  have hothers : ∀ l' ls', l' ≠ l → st.lanes.get? l' = some ls' →
      ∀ u, ls'.resident u = true → u ≠ t := by
    intro l' ls' hne hold u hu he
    rw [he] at hu
    exact hne (h.laneLaneDisj l' l ls' _ t hold hl hu hres)
  refine ⟨h.progLen, h.dcntLen, ?_, ?_, ?_, ?_, ?_, ?_, ?_, ?_, ?_⟩
  · intro u
    rw [deferPost_progOf]
    exact h.progLe u
  · intro l' ls' h' u hu
    simp only [deferPost_lanes] at h'
    simp only [deferPost_cursor, deferPost_progOf]
    rcases get?_set_cases _ _ _ _ _ h' with ⟨heq, hveq⟩ | ⟨hne, hold⟩
    · subst hveq
      exact absurd hu (by simp [resident_idle])
    · exact h.resMinted l' ls' hold u hu
  · intro r hr
    simp only [deferPost_blocked] at hr
    simp only [deferPost_cursor, deferPost_progOf]
    rcases List.mem_append.mp hr with hro | hrn
    · exact h.blkRec r hro
    · have : r = ⟨t, st.progOf t, D⟩ := by simpa using hrn
      subst this
      exact ⟨htc, rfl, hts, hself, hD⟩
  · intro l' ls' h' u hu
    simp only [deferPost_lanes] at h'
    rcases get?_set_cases _ _ _ _ _ h' with ⟨heq, hveq⟩ | ⟨hne, hold⟩
    · subst hveq
      exact absurd hu (by simp [resident_idle])
    · have hut := hothers l' ls' hne hold u hu
      rw [deferPost_isBlocked]
      rw [h.laneBlkDisj l' ls' hold u hu]
      simp only [Bool.false_or, decide_eq_false_iff_not]
      exact fun he => hut he.symm
  · intro l₁ l₂ ls₁ ls₂ u h₁ h₂ hu₁ hu₂
    simp only [deferPost_lanes] at h₁ h₂
    rcases get?_set_cases _ _ _ _ _ h₁ with ⟨heq₁, hveq₁⟩ | ⟨hne₁, hold₁⟩ <;>
      rcases get?_set_cases _ _ _ _ _ h₂ with ⟨heq₂, hveq₂⟩ | ⟨hne₂, hold₂⟩
    · rw [heq₁, heq₂]
    · subst hveq₁
      exact absurd hu₁ (by simp [resident_idle])
    · subst hveq₂
      exact absurd hu₂ (by simp [resident_idle])
    · exact h.laneLaneDisj l₁ l₂ ls₁ ls₂ u hold₁ hold₂ hu₁ hu₂
  · simp only [deferPost_blocked, List.map_append, List.map_cons, List.map_nil]
    rw [List.nodup_append]
    refine ⟨h.blkNodup, List.nodup_singleton _, ?_⟩
    intro a ha hb
    have hat : a = t := by simpa using hb
    subst hat
    rw [isBlocked_false_iff] at hblk
    obtain ⟨r, hr, hrt⟩ := List.mem_map.mp ha
    exact hblk r hr hrt
  · intro u hu hp
    simp only [deferPost_cursor] at hu
    simp only [deferPost_progOf] at hp
    by_cases hue : u = t
    · refine Or.inr ?_
      rw [deferPost_isBlocked]
      simp [hue]
    · rcases h.present u hu hp with ⟨l'', ls'', h'', hres'⟩ | hb
      · by_cases hel : l'' = l
        · subst hel
          rw [hl] at h''
          have := Option.some.inj h''
          subst this
          exact absurd ((resident_executing_iff t u).mp hres') (fun he => hue he.symm)
        · refine Or.inl ⟨l'', ls'', ?_, hres'⟩
          simp only [deferPost_lanes]
          rw [get?_set_ne _ _ _ _ (Ne.symm hel)]
          exact h''
      · refine Or.inr ?_
        rw [deferPost_isBlocked]
        simp [hb]
  · intro l' u h'
    simp only [deferPost_lanes] at h'
    simp only [deferPost_progOf]
    rcases get?_set_cases _ _ _ _ _ h' with ⟨heq, hveq⟩ | ⟨hne, hold⟩
    · exact absurd hveq (by simp)
    · exact h.holdingPos l' u hold
  · intro hk l' u h' hp0 hd0
    simp only [deferPost_lanes] at h'
    simp only [deferPost_progOf] at hp0
    simp only [deferPost_dcntOf] at hd0
    simp only [deferPost_cursor]
    rcases get?_set_cases _ _ _ _ _ h' with ⟨heq, hveq⟩ | ⟨hne, hold⟩
    · exact absurd hveq (by simp)
    · exact h.mintSerial hk l' u hold hp0 hd0

/-- Every scheduler step preserves the controller invariant. -/
theorem inv_step (P : Pipeline) (st : PState) (ch : Choice) (h : Inv P st) :
    Inv P (stepE P st ch).1 := by
  refine step_cases P st ch (fun st' _ => Inv P st') h ?_ ?_ ?_ ?_ ?_
  · intro l he hl hg _
    exact inv_mint h hl hg
  · intro l t he hl hg _
    exact inv_start h hl
  · intro l t he hl _
    refine applyFinish_cases P st l t (st.progOf t) _ (fun st' => Inv P st') ?_ ?_ ?_ ?_ ?_
    · intro _ _
      exact inv_cfg h _ _
    · intro _
      exact inv_cfg h _ _
    · intro _ _
      exact inv_pass h hl _
    · intro _ _ _ _
      exact inv_cfg h _ _
    · intro hD hns hself hcyc
      refine inv_defer h hl ?_ ?_ _
      · intro hm
        have hm' := List.mem_dedup.mp hm
        have : (P.callAt (st.progOf t)
            ⟨t, l, st.progOf t, st.dcntOf t⟩).defers.any (fun d => d = t) = true :=
          List.any_eq_true.mpr ⟨t, hm', by simp⟩
        rw [this] at hself
        exact Bool.noConfusion hself
      · rw [ne_eq, List.dedup_eq_nil]
        exact hD
  · intro l k r he hl hk hg _
    exact inv_resume h hl (List.get?_mem hk)
  · intro he hg _
    exact inv_cfg h _ _

/-- The invariant holds at every point of every run from the initial state. -/
theorem inv_at (P : Pipeline) (cs : List Choice) (k : Nat) : Inv P (stAt P cs k) :=
  run_preserve P (Inv P) (fun st ch h => inv_step P st ch h) _ _ (inv_init P)

/-- The invariant holds at the final state of every run. -/
theorem inv_run (P : Pipeline) (cs : List Choice) : Inv P (runState P cs) :=
  run_preserve P (Inv P) (fun st ch h => inv_step P st ch h) _ _ (inv_init P)

/-! ### Event inversion -/

/-- What a `startE t s c` event reveals: the pre-state was error-free, the
ordering gate was open for `t` at `s`, and the step was a mint, a start of a
held token, or a resumption of a deferral-graph record of `t` whose blockers
had all cleared. -/
theorem startE_inv (P : Pipeline) (st : PState) (ch : Choice) (st' : PState) (t s c : Nat)
    (h : stepE P st ch = (st', Event.startE t s c)) :
    st.error = none ∧ gate P st t s = true ∧
    ((∃ l, st.lanes.get? l = some LaneState.idle ∧ st' = mintPost st l ∧
        t = st.cursor ∧ s = 0 ∧ c = 0 ∧ st.stopped = none) ∨
     (∃ l, st.lanes.get? l = some (LaneState.holding t) ∧ st' = startPost st l t ∧
        s = st.progOf t ∧ c = st.dcntOf t) ∨
     (∃ l r, st.lanes.get? l = some LaneState.idle ∧ r ∈ st.blocked ∧ r.token = t ∧
        r.stage = s ∧ c = st.dcntOf t + 1 ∧ (∀ d ∈ r.blockers, s < st.progOf d) ∧
        st' = resumePost st l r)) := by
  have hm := step_cases P st ch
    (fun st₂ ev => ev = Event.startE t s c → st₂ = st' →
      (st.error = none ∧ gate P st t s = true ∧
        ((∃ l, st.lanes.get? l = some LaneState.idle ∧ st' = mintPost st l ∧
            t = st.cursor ∧ s = 0 ∧ c = 0 ∧ st.stopped = none) ∨
         (∃ l, st.lanes.get? l = some (LaneState.holding t) ∧ st' = startPost st l t ∧
            s = st.progOf t ∧ c = st.dcntOf t) ∨
         (∃ l r, st.lanes.get? l = some LaneState.idle ∧ r ∈ st.blocked ∧ r.token = t ∧
            r.stage = s ∧ c = st.dcntOf t + 1 ∧ (∀ d ∈ r.blockers, s < st.progOf d) ∧
            st' = resumePost st l r))))
    ?_ ?_ ?_ ?_ ?_ ?_
  · exact hm (congrArg Prod.snd h) (congrArg Prod.fst h)
  · intro heq
    exact absurd heq (by simp)
  · intro l he hl hg hch heq hst
    obtain ⟨h1, h2, h3⟩ := Event.startE.inj heq
    obtain ⟨hstop, hS, hgate⟩ := mintGuard_spec hg
    subst h1
    subst h2
    subst h3
    exact ⟨he, hgate, Or.inl ⟨l, hl, hst.symm, rfl, rfl, rfl, hstop⟩⟩
  · intro l t₀ he hl hg hch heq hst
    obtain ⟨h1, h2, h3⟩ := Event.startE.inj heq
    subst h1
    subst h2
    subst h3
    exact ⟨he, hg, Or.inr (Or.inl ⟨l, hl, hst.symm, rfl, rfl⟩)⟩
  · intro l t₀ he hl hch heq
    exact absurd heq (by simp)
  · intro l k r he hl hk hg hch heq hst
    obtain ⟨h1, h2, h3⟩ := Event.startE.inj heq
    obtain ⟨hclr, hgate⟩ := resumeGuard_spec hg
    subst h1
    subst h2
    refine ⟨he, hgate, Or.inr (Or.inr ⟨l, r, hl, List.get?_mem hk, rfl, rfl, h3.symm, ?_,
      hst.symm⟩)⟩
    exact hclr
  · intro he hg hch heq
    exact absurd heq (by simp)

/-- What an `endE t s c D stp` event reveals: the pre-state was error-free,
some lane was executing `t` at its current stage `s` with deferral count `c`,
`⟨D, stp⟩` is exactly the stage callable's result there, and the post-state is
`applyFinish` of that result. -/
theorem endE_inv (P : Pipeline) (st : PState) (ch : Choice) (st' : PState)
    (t s c : Nat) (D : List Nat) (stp : Bool)
    (h : stepE P st ch = (st', Event.endE t s c D stp)) :
    st.error = none ∧ s = st.progOf t ∧ c = st.dcntOf t ∧
    ∃ l, st.lanes.get? l = some (LaneState.executing t) ∧
      P.callAt s ⟨t, l, s, c⟩ = ⟨D, stp⟩ ∧
      st' = applyFinish P st l t s ⟨D, stp⟩ := by
  have hm := step_cases P st ch
    (fun st₂ ev => ev = Event.endE t s c D stp → st₂ = st' →
      (st.error = none ∧ s = st.progOf t ∧ c = st.dcntOf t ∧
        ∃ l, st.lanes.get? l = some (LaneState.executing t) ∧
          P.callAt s ⟨t, l, s, c⟩ = ⟨D, stp⟩ ∧
          st' = applyFinish P st l t s ⟨D, stp⟩))
    ?_ ?_ ?_ ?_ ?_ ?_
  · exact hm (congrArg Prod.snd h) (congrArg Prod.fst h)
  · intro heq
    exact absurd heq (by simp)
  · intro l he hl hg hch heq
    exact absurd heq (by simp)
  · intro l t₀ he hl hg hch heq
    exact absurd heq (by simp)
  · intro l t₀ he hl hch heq hst
    obtain ⟨h1, h2, h3, h4, h5⟩ := Event.endE.inj heq
    have h1' := h1.symm
    subst h1'
    subst h2
    subst h3
    refine ⟨he, rfl, rfl, l, hl, ?_, ?_⟩
    · cases hres : P.callAt (st.progOf t) ⟨t, l, st.progOf t, st.dcntOf t⟩ with
      | mk ds sp =>
          rw [hres] at h4 h5
          simp only at h4 h5
          rw [← h4, ← h5]
    · rw [← hst]
      cases hres : P.callAt (st.progOf t) ⟨t, l, st.progOf t, st.dcntOf t⟩ with
      | mk ds sp =>
          rw [hres] at h4 h5
          simp only at h4 h5
          rw [← h4, ← h5]
  · intro l k r he hl hk hg hch heq
    exact absurd heq (by simp)
  · intro he hg hch heq
    exact absurd heq (by simp)

/-- Post-state facts of a `startE t s c` event: token `t` is minted, resident
executing in some lane, at stage `s` with deferral count `c`, and the state is
error-free. -/
theorem startE_post (P : Pipeline) (st : PState) (ch : Choice) (st' : PState)
    (t s c : Nat) (hInv : Inv P st)
    (h : stepE P st ch = (st', Event.startE t s c)) :
    st'.progOf t = s ∧ st'.dcntOf t = c ∧ t < st'.cursor ∧
    (∃ l, st'.lanes.get? l = some (LaneState.executing t)) ∧ st'.error = none := by
  obtain ⟨he, hg, hcases⟩ := startE_inv P st ch st' t s c h
  rcases hcases with ⟨l, hl, hst, ht, hs, hc, hstop⟩ | ⟨l, hl, hst, hs, hc⟩ |
    ⟨l, r, hl, hr, hrt, hrs, hc, hclr, hst⟩
  · have hllen : l < st.lanes.length := get?_some_lt _ _ _ hl
    subst hst
    subst ht
    subst hs
    subst hc
    refine ⟨?_, ?_, ?_, ⟨l, ?_⟩, he⟩
    · rw [mintPost_progOf]
      exact getD_default_of_le _ _ (Nat.le_of_eq hInv.progLen)
    · rw [mintPost_dcntOf]
      exact getD_default_of_le _ _ (Nat.le_of_eq hInv.dcntLen)
    · simp
    · simp only [mintPost_lanes]
      exact get?_set_self _ _ _ hllen
  · have hllen : l < st.lanes.length := get?_some_lt _ _ _ hl
    subst hst
    subst hs
    subst hc
    refine ⟨rfl, rfl, ?_, ⟨l, ?_⟩, he⟩
    · exact (hInv.resMinted l _ hl t ((resident_holding_iff t t).mpr rfl)).1
    · simp only [startPost_lanes]
      exact get?_set_self _ _ _ hllen
  · have hllen : l < st.lanes.length := get?_some_lt _ _ _ hl
    obtain ⟨htc, hstage, hpr, hself, hne⟩ := hInv.blkRec r hr
    have hdl : r.token < st.dcnt.length := by rw [hInv.dcntLen]; exact htc
    subst hst
    subst hrt
    subst hrs
    subst hc
    refine ⟨?_, ?_, htc, ⟨l, ?_⟩, he⟩
    · rw [resumePost_progOf]
      exact hstage.symm
    · exact resumePost_dcntOf_self st l r hdl
    · simp only [resumePost_lanes]
      exact get?_set_self _ _ _ hllen

/-- Two deferral-graph entries with the same token coincide. -/
theorem blocked_token_unique {P : Pipeline} {st : PState} {r₁ r₂ : BlockedRec}
    (hInv : Inv P st) (h₁ : r₁ ∈ st.blocked) (h₂ : r₂ ∈ st.blocked)
    (he : r₁.token = r₂.token) : r₁ = r₂ :=
  List.inj_on_of_nodup_map hInv.blkNodup h₁ h₂ he

/-- One step either keeps an executing token executing (with its progress and
deferral count untouched) or ends that token's invocation, emitting its `endE`
event. -/
theorem step_exec_stable (P : Pipeline) (st : PState) (ch : Choice) (t : Nat)
    (hInv : Inv P st) (hl : ∃ l0, st.lanes.get? l0 = some (LaneState.executing t)) :
    ((∃ l, (stepE P st ch).1.lanes.get? l = some (LaneState.executing t)) ∧
      (stepE P st ch).1.progOf t = st.progOf t ∧
      (stepE P st ch).1.dcntOf t = st.dcntOf t) ∨
    (∃ D stp, (stepE P st ch).2 = Event.endE t (st.progOf t) (st.dcntOf t) D stp) := by
  obtain ⟨l0, hx⟩ := hl
  refine step_cases P st ch (fun st₂ ev =>
    ((∃ l, st₂.lanes.get? l = some (LaneState.executing t)) ∧
      st₂.progOf t = st.progOf t ∧ st₂.dcntOf t = st.dcntOf t) ∨
    (∃ D stp, ev = Event.endE t (st.progOf t) (st.dcntOf t) D stp)) ?_ ?_ ?_ ?_ ?_ ?_
  · exact Or.inl ⟨⟨l0, hx⟩, rfl, rfl⟩
  · intro l he hli hg hch
    have hne : l ≠ l0 := by
      intro he'
      subst he'
      rw [hli] at hx
      exact LaneState.noConfusion (Option.some.inj hx)
    refine Or.inl ⟨⟨l0, ?_⟩, mintPost_progOf st l t, mintPost_dcntOf st l t⟩
    simp only [mintPost_lanes]
    rw [get?_set_ne _ _ _ _ hne]
    exact hx
  · intro l t₀ he hli hg hch
    have hne : l ≠ l0 := by
      intro he'
      subst he'
      rw [hli] at hx
      exact LaneState.noConfusion (Option.some.inj hx)
    refine Or.inl ⟨⟨l0, ?_⟩, rfl, rfl⟩
    simp only [startPost_lanes]
    rw [get?_set_ne _ _ _ _ hne]
    exact hx
  · intro l t₀ he hli hch
    by_cases htt : t₀ = t
    · subst htt
      exact Or.inr ⟨_, _, rfl⟩
    · have hne : l ≠ l0 := by
        intro he'
        subst he'
        rw [hli] at hx
        exact htt (LaneState.executing.inj (Option.some.inj hx))
      refine Or.inl ?_
      refine applyFinish_cases P st l t₀ (st.progOf t₀) _ (fun st₂ =>
        (∃ l', st₂.lanes.get? l' = some (LaneState.executing t)) ∧
          st₂.progOf t = st.progOf t ∧ st₂.dcntOf t = st.dcntOf t) ?_ ?_ ?_ ?_ ?_
      · intro _ _
        exact ⟨⟨l0, hx⟩, rfl, rfl⟩
      · intro _
        exact ⟨⟨l0, hx⟩, rfl, rfl⟩
      · intro _ _
        refine ⟨⟨l0, ?_⟩, ?_, rfl⟩
        · simp only [passPost_lanes]
          rw [get?_set_ne _ _ _ _ hne]
          exact hx
        · exact getD_set_ne _ _ _ _ htt
      · intro _ _ _ _
        exact ⟨⟨l0, hx⟩, rfl, rfl⟩
      · intro _ _ _ _
        refine ⟨⟨l0, ?_⟩, rfl, rfl⟩
        simp only [deferPost_lanes]
        rw [get?_set_ne _ _ _ _ hne]
        exact hx
  · intro l k r he hli hk hg hch
    have hne : l ≠ l0 := by
      intro he'
      subst he'
      rw [hli] at hx
      exact LaneState.noConfusion (Option.some.inj hx)
    have hrt : r.token ≠ t := by
      intro he'
      have hb : st.isBlocked t = true :=
        (isBlocked_iff st t).mpr ⟨r, List.get?_mem hk, he'⟩
      rw [hInv.laneBlkDisj l0 _ hx t ((resident_executing_iff t t).mpr rfl)] at hb
      exact Bool.noConfusion hb
    refine Or.inl ⟨⟨l0, ?_⟩, rfl, ?_⟩
    · simp only [resumePost_lanes]
      rw [get?_set_ne _ _ _ _ hne]
      exact hx
    · exact resumePost_dcntOf_ne st l t r (fun he' => hrt he'.symm)
  · intro he hg hch
    exact Or.inl ⟨⟨l0, hx⟩, rfl, rfl⟩

/-- One step either keeps a deferral-graph entry in place (with its token's
deferral count untouched) or resumes exactly that entry, emitting its
re-invocation `startE` event after all its blockers cleared. -/
theorem step_record_stable (P : Pipeline) (st : PState) (ch : Choice) (r : BlockedRec)
    (hInv : Inv P st) (hr : r ∈ st.blocked) :
    (r ∈ (stepE P st ch).1.blocked ∧
      (stepE P st ch).1.dcntOf r.token = st.dcntOf r.token) ∨
    ((stepE P st ch).2 = Event.startE r.token r.stage (st.dcntOf r.token + 1) ∧
      (∀ d ∈ r.blockers, r.stage < st.progOf d)) := by
  refine step_cases P st ch (fun st₂ ev =>
    (r ∈ st₂.blocked ∧ st₂.dcntOf r.token = st.dcntOf r.token) ∨
    (ev = Event.startE r.token r.stage (st.dcntOf r.token + 1) ∧
      (∀ d ∈ r.blockers, r.stage < st.progOf d))) ?_ ?_ ?_ ?_ ?_ ?_
  · exact Or.inl ⟨hr, rfl⟩
  · intro l he hli hg hch
    exact Or.inl ⟨hr, mintPost_dcntOf st l r.token⟩
  · intro l t₀ he hli hg hch
    exact Or.inl ⟨hr, rfl⟩
  · intro l t₀ he hli hch
    refine Or.inl ?_
    refine applyFinish_cases P st l t₀ (st.progOf t₀) _ (fun st₂ =>
      r ∈ st₂.blocked ∧ st₂.dcntOf r.token = st.dcntOf r.token) ?_ ?_ ?_ ?_ ?_
    · intro _ _
      exact ⟨hr, rfl⟩
    · intro _
      exact ⟨hr, rfl⟩
    · intro _ _
      exact ⟨hr, rfl⟩
    · intro _ _ _ _
      exact ⟨hr, rfl⟩
    · intro _ _ _ _
      refine ⟨?_, rfl⟩
      simp only [deferPost_blocked]
      exact List.mem_append_left _ hr
  · intro l k r' he hli hk hg hch
    by_cases hrr : r'.token = r.token
    · have hr' : r' = r := blocked_token_unique hInv (List.get?_mem hk) hr hrr
      subst hr'
      obtain ⟨hclr, hgate⟩ := resumeGuard_spec hg
      exact Or.inr ⟨rfl, hclr⟩
    · refine Or.inl ⟨?_, ?_⟩
      · simp only [resumePost_blocked]
        refine List.mem_filter.mpr ⟨hr, ?_⟩
        simp only [bne_iff_ne, ne_eq]
        exact fun he' => hrr he'.symm
      · exact resumePost_dcntOf_ne st l r.token r' (fun he' => hrr he'.symm)
  · intro he hg hch
    exact Or.inl ⟨hr, rfl⟩

/-- The canonical step-pair at position `j` of a run: state `j+1` and event `j`
are the two components of one `stepE` application. -/
theorem step_pair (P : Pipeline) (cs : List Choice) (j : Nat) (hj : j < cs.length) :
    stepE P (stAt P cs j) (cs.getD j Choice.drainCheck) =
      (stAt P cs (j + 1), evAt P cs j) := by
  rw [stAt_succ P cs j hj, evAt_eq P cs j hj]

/-- Along a run, a deferral-graph entry either persists (with its token's
deferral count unchanged) or is resumed at some step, which emits its
re-invocation event after all its blockers cleared. -/
theorem record_run (P : Pipeline) (cs : List Choice) (r : BlockedRec) (k m : Nat)
    (hkm : k ≤ m) (hm : m ≤ cs.length) (hr : r ∈ (stAt P cs k).blocked) :
    (r ∈ (stAt P cs m).blocked ∧
      (stAt P cs m).dcntOf r.token = (stAt P cs k).dcntOf r.token) ∨
    (∃ j, k ≤ j ∧ j < m ∧
      evAt P cs j = Event.startE r.token r.stage ((stAt P cs k).dcntOf r.token + 1) ∧
      (∀ d ∈ r.blockers, r.stage < (stAt P cs j).progOf d)) := by
  induction m, hkm using Nat.le_induction with
  | base => exact Or.inl ⟨hr, rfl⟩
  | succ m hkm ih =>
      have hmlen : m < cs.length := by omega
      rcases ih (by omega) with ⟨hrm, hdm⟩ | ⟨j, hj1, hj2, hj3, hj4⟩
      · have hstep := step_record_stable P (stAt P cs m) (cs.getD m Choice.drainCheck) r
          (inv_at P cs m) hrm
        rcases hstep with ⟨h1, h2⟩ | ⟨h1, h2⟩
        · refine Or.inl ⟨?_, ?_⟩
          · rw [stAt_succ P cs m hmlen]
            exact h1
          · rw [stAt_succ P cs m hmlen, h2, hdm]
        · refine Or.inr ⟨m, hkm, Nat.lt_succ_self m, ?_, h2⟩
          rw [evAt_eq P cs m hmlen, h1, hdm]
      · exact Or.inr ⟨j, hj1, by omega, hj3, hj4⟩

/-- Along a run, an executing token either stays executing (with its progress
and deferral count unchanged) or its invocation finishes at some step, which
emits its `endE` event. -/
theorem exec_run (P : Pipeline) (cs : List Choice) (t : Nat) (k m : Nat)
    (hkm : k ≤ m) (hm : m ≤ cs.length)
    (hl : ∃ l, (stAt P cs k).lanes.get? l = some (LaneState.executing t)) :
    ((∃ l, (stAt P cs m).lanes.get? l = some (LaneState.executing t)) ∧
      (stAt P cs m).progOf t = (stAt P cs k).progOf t ∧
      (stAt P cs m).dcntOf t = (stAt P cs k).dcntOf t) ∨
    (∃ j D stp, k ≤ j ∧ j < m ∧
      evAt P cs j =
        Event.endE t ((stAt P cs k).progOf t) ((stAt P cs k).dcntOf t) D stp) := by
  induction m, hkm using Nat.le_induction with
  | base => exact Or.inl ⟨hl, rfl, rfl⟩
  | succ m hkm ih =>
      have hmlen : m < cs.length := by omega
      rcases ih (by omega) with ⟨hlm, hpm, hdm⟩ | ⟨j, D, stp, hj1, hj2, hj3⟩
      · have hstep := step_exec_stable P (stAt P cs m) (cs.getD m Choice.drainCheck) t
          (inv_at P cs m) hlm
        rcases hstep with ⟨h1, h2, h3⟩ | ⟨D, stp, h1⟩
        · refine Or.inl ⟨?_, ?_, ?_⟩
          · rw [stAt_succ P cs m hmlen]
            exact h1
          · rw [stAt_succ P cs m hmlen, h2, hpm]
          · rw [stAt_succ P cs m hmlen, h3, hdm]
        · refine Or.inr ⟨m, D, stp, hkm, Nat.lt_succ_self m, ?_⟩
          rw [evAt_eq P cs m hmlen, h1, hpm, hdm]
      · exact Or.inr ⟨j, D, stp, hj1, by omega, hj3⟩

/-- Once a token has been in the deferral graph, it is either still there or
its deferral count has become positive. -/
theorem blocked_dcnt_run (P : Pipeline) (cs : List Choice) (t : Nat) (k m : Nat)
    (hkm : k ≤ m) (hm : m ≤ cs.length) (hb : (stAt P cs k).isBlocked t = true) :
    (stAt P cs m).isBlocked t = true ∨ 1 ≤ (stAt P cs m).dcntOf t := by
  obtain ⟨r, hr, hrt⟩ := (isBlocked_iff _ t).mp hb
  rcases record_run P cs r k m hkm hm hr with ⟨h1, _⟩ | ⟨j, hj1, hj2, hj3, _⟩
  · exact Or.inl ((isBlocked_iff _ t).mpr ⟨r, h1, hrt⟩)
  · have hjlen : j < cs.length := by omega
    have hpair := step_pair P cs j hjlen
    rw [hj3] at hpair
    have hpost := startE_post P (stAt P cs j) _ _ _ _ _ (inv_at P cs j) hpair
    have hd1 : 1 ≤ (stAt P cs (j + 1)).dcntOf r.token := by
      rw [hpost.2.1]
      omega
    have hmono := (stAt_stepLe P cs (j + 1) m (by omega)).dcnt_le r.token
    right
    rw [← hrt]
    omega

/-! ### Drain helpers -/

theorem drained_spec (st : PState) (h : st.drained = true) :
    st.stopped ≠ none ∧ (∀ l ls, st.lanes.get? l = some ls → ls = LaneState.idle) ∧
    st.blocked = [] ∧ st.error = none := by
  unfold PState.drained at h
  simp only [Bool.and_eq_true, decide_eq_true_eq, List.all_eq_true,
    List.isEmpty_iff] at h
  obtain ⟨⟨⟨h1, h2⟩, h3⟩, h4⟩ := h
  refine ⟨h1, ?_, h3, h4⟩
  intro l ls hl
  exact h2 ls (List.get?_mem hl)

/-- In the drained state every minted token has completed every stage. -/
theorem drained_complete (P : Pipeline) (cs : List Choice)
    (h : (runState P cs).drained = true) :
    ∀ t, t < (runState P cs).cursor → (runState P cs).progOf t = P.numStages := by
  obtain ⟨h1, h2, h3, h4⟩ := drained_spec _ h
  intro t ht
  by_contra hlt
  have hps : (runState P cs).progOf t < P.numStages :=
    Nat.lt_of_le_of_ne ((inv_run P cs).progLe t) hlt
  rcases (inv_run P cs).present t ht hps with ⟨l, ls, hl, hres⟩ | hb
  · rw [h2 l ls hl] at hres
    exact absurd hres (by simp [resident_idle])
  · rw [isBlocked_iff] at hb
    obtain ⟨r, hr, _⟩ := hb
    rw [h3] at hr
    exact absurd hr (List.not_mem_nil r)

theorem applyFinish_cursor (P : Pipeline) (st : PState) (l t s : Nat) (res : CallResult) :
    (applyFinish P st l t s res).cursor = st.cursor := by
  refine applyFinish_cases P st l t s res (fun st₂ => st₂.cursor = st.cursor)
    ?_ ?_ ?_ ?_ ?_ <;> intros <;> rfl

/-! ### Claim C2: ordered-stage execution order -/

/-- C2: for every run and every ORDERED stage, the invocation order of
non-deferred tokens (deferral count 0) at that stage is monotonically
non-decreasing in token id: if a begin event of token `t` precedes a begin
event of token `u` at the same ordered stage, and both invocations observe
`num_deferrals() = 0`, then `t ≤ u`. -/
theorem spec_c2 (P : Pipeline) (cs : List Choice) (s i j t u : Nat)
    (hord : P.kindAt s = StageKind.ordered)
    (hij : i < j) (hjlen : j < cs.length)
    (hi : evAt P cs i = Event.startE t s 0)
    (hj : evAt P cs j = Event.startE u s 0) :
    t ≤ u := by
  by_contra hlt
  have hut : u < t := by omega
  have hilen : i < cs.length := by omega
  have hpi := step_pair P cs i hilen
  rw [hi] at hpi
  have hpj := step_pair P cs j hjlen
  rw [hj] at hpj
  obtain ⟨hei, hgi, _⟩ := startE_inv P _ _ _ _ _ _ hpi
  have hpostj := startE_post P _ _ _ _ _ _ (inv_at P cs j) hpj
  rcases gate_ordered hord hgi u hut with hpass | hblk
  · have hmono := (stAt_stepLe P cs i (j + 1) (by omega)).prog_le u
    have h2 : (stAt P cs (j + 1)).progOf u = s := hpostj.1
    omega
  · rcases blocked_dcnt_run P cs u i (j + 1) (by omega) (by omega) hblk with hb | hd
    · obtain ⟨l, hlu⟩ := hpostj.2.2.2.1
      have hx := (inv_at P cs (j + 1)).laneBlkDisj l _ hlu u
        ((resident_executing_iff u u).mpr rfl)
      rw [hx] at hb
      exact Bool.noConfusion hb
    · have h2 : (stAt P cs (j + 1)).dcntOf u = 0 := hpostj.2.1
      omega

/-! ### Claim C7: no double invocation of one token -/

/-- C7: for every token, at most one stage-callable invocation for that token
is in flight at any reachable instant: two lanes simultaneously executing the
same token coincide. -/
theorem spec_c7 (P : Pipeline) (cs : List Choice) (t l₁ l₂ : Nat)
    (h₁ : (runState P cs).lanes.get? l₁ = some (LaneState.executing t))
    (h₂ : (runState P cs).lanes.get? l₂ = some (LaneState.executing t)) :
    l₁ = l₂ :=
  (inv_run P cs).laneLaneDisj l₁ l₂ _ _ t h₁ h₂
    ((resident_executing_iff t t).mpr rfl) ((resident_executing_iff t t).mpr rfl)

/-! ### Claim C8: self-deferral is a synchronous protocol violation -/

/-- C8: a `defer` on the token itself surfaces `ProtocolViolation` synchronously
at the violating invocation's return; the run is aborted (every later step is a
no-op); and the deferral graph never contains a self-edge in any reachable
state. -/
theorem spec_c8 (P : Pipeline) :
    (∀ st ch st' t s c D stp, stepE P st ch = (st', Event.endE t s c D stp) →
      t ∈ D → st'.error = some Err.protocolViolation) ∧
    (∀ st ch, st.error ≠ none → stepE P st ch = (st, Event.nop)) ∧
    (∀ cs r, r ∈ (runState P cs).blocked → r.token ∉ r.blockers) := by
  refine ⟨?_, fun st ch he => step_frozen P st ch he, ?_⟩
  · intro st ch st' t s c D stp h htD
    obtain ⟨he, hs, hc, l, hl, hres, hst⟩ := endE_inv P st ch st' t s c D stp h
    subst hst
    unfold applyFinish
    by_cases h1 : ((⟨D, stp⟩ : CallResult).stop && decide (s ≠ 0)) = true
    · rw [if_pos h1]
    · rw [if_neg h1]
      have h2 : ((⟨D, stp⟩ : CallResult).defers.any (fun d => d = t)) = true :=
        List.any_eq_true.mpr ⟨t, htD, by simp⟩
      rw [if_pos h2]
  · intro cs r hr
    exact ((inv_run P cs).blkRec r hr).2.2.2.1

/-! ### Claim C9: reset reproducibility -/

/-- The minted-token id sequence of a trace: the begin events at stage 0 with
deferral count 0 are exactly the mint events. -/
def mintedSeq (tr : List Event) : List Nat :=
  tr.filterMap (fun e =>
    match e with
    | Event.startE t 0 0 => some t
    | _ => none)

/-- C9: `reset()` followed by running the same schedule reproduces the run of a
fresh controller exactly — in particular the same minted-token sequence and
the same event trace (every pass/defer decision), since the callables are
deterministic. -/
theorem spec_c9 (P : Pipeline) (st : PState) (cs : List Choice) :
    runFrom P (st.reset P) cs = runFrom P (initState P) cs ∧
    mintedSeq (runFrom P (st.reset P) cs).2 = mintedSeq (runTrace P cs) ∧
    (runFrom P (st.reset P) cs).2 = runTrace P cs :=
  ⟨rfl, rfl, rfl⟩

/-- An error-free invocation return that called `stop()` records the stopping
token. -/
theorem endE_stop_post (P : Pipeline) (st : PState) (ch : Choice) (st' : PState)
    (t s c : Nat) (D : List Nat)
    (h : stepE P st ch = (st', Event.endE t s c D true)) (he' : st'.error = none) :
    st'.stopped = some t := by
  obtain ⟨he, hs, hc, l, hl, hres, hst⟩ := endE_inv P st ch st' t s c D true h
  subst hst
  refine applyFinish_cases P st l t s ⟨D, true⟩
    (fun st₂ => st₂.error = none → st₂.stopped = some t) ?_ ?_ ?_ ?_ ?_ he'
  · intro _ _ he₂
    exact absurd he₂ (by simp)
  · intro _ he₂
    exact absurd he₂ (by simp)
  · intro _ _ _
    simp [passPost]
  · intro _ _ _ _ he₂
    exact absurd he₂ (by simp)
  · intro _ _ _ _ _
    simp [deferPost]

/-! ### Claim C3 (amended): stop and drain -/

/-- C3 (amended): if `stop()` is invoked at stage 0 for token `T` (error-free
run), then no token is minted after the stop event; if the run drains, every
minted token completes every stage beforehand; and when the stop occurs during
`T`'s first stage-0 invocation (`num_deferrals() = 0`, the only case possible
for a callable that stops on fresh tokens), `T` is the last token minted: the
cursor is `T + 1` from the stop event onwards and never exceeds `T + 1`.
(If the stop is issued on a re-invocation of a previously deferred token,
larger ids may already have been minted before the stop — see the
counterexample — but minting still ceases at the stop event.) -/
theorem spec_c3 (P : Pipeline) (cs : List Choice) (i T c : Nat) (D : List Nat)
    (hval : P.valid)
    (herr : (runState P cs).error = none) (hilen : i < cs.length)
    (hev : evAt P cs i = Event.endE T 0 c D true) :
    (∀ k, i < k → (stAt P cs k).cursor = (stAt P cs (i + 1)).cursor) ∧
    ((runState P cs).drained = true →
      ∀ u, u < (runState P cs).cursor → (runState P cs).progOf u = P.numStages) ∧
    (c = 0 →
      (stAt P cs (i + 1)).cursor = T + 1 ∧ (runState P cs).cursor = T + 1 ∧
      ∀ k, (stAt P cs k).cursor ≤ T + 1) := by
  have hpair := step_pair P cs i hilen
  rw [hev] at hpair
  have hpost_err : (stAt P cs (i + 1)).error = none := stAt_error_none P cs (i + 1) herr
  have hstop : (stAt P cs (i + 1)).stopped = some T :=
    endE_stop_post P _ _ _ _ _ _ _ hpair hpost_err
  have hfrozen : ∀ k, i < k → (stAt P cs k).cursor = (stAt P cs (i + 1)).cursor := by
    intro k hk
    have hle := stAt_stepLe P cs (i + 1) k (by omega)
    exact hle.stopped_cursor (by rw [hstop]; simp)
  refine ⟨hfrozen, fun hdr => drained_complete P cs hdr, ?_⟩
  intro hc0
  subst hc0
  obtain ⟨he, hs, hc, l, hl, hres, hst⟩ := endE_inv P _ _ _ _ _ _ _ _ hpair
  have hkind : P.kindAt 0 = StageKind.ordered := hval.2.2
  have hcur : (stAt P cs i).cursor = T + 1 :=
    (inv_at P cs i).mintSerial hkind l T hl hs.symm hc.symm
  have hcur1 : (stAt P cs (i + 1)).cursor = T + 1 := by
    rw [hst, applyFinish_cursor]
    exact hcur
  refine ⟨hcur1, ?_, ?_⟩
  · have hfin := hfrozen cs.length (by omega)
    rw [stAt_final P cs cs.length (Nat.le_refl _)] at hfin
    rw [hfin]
    exact hcur1
  · intro k
    by_cases hk : k ≤ i + 1
    · have := (stAt_stepLe P cs k (i + 1) hk).cursor_le
      omega
    · have := hfrozen k (by omega)
      omega

/-! ### Invocation accounting -/

/-- Is this event the return of a stage-callable invocation? -/
def isEndEv : Event → Bool
  | Event.endE _ _ _ _ _ => true
  | _ => false

/-- Is this event an invocation return that issued no `defer` (the token
passes through)? -/
def isPassEndEv : Event → Bool
  | Event.endE _ _ _ D _ => D.isEmpty
  | _ => false

/-- Is this event an invocation return that deferred its token? -/
def isDeferEndEv : Event → Bool
  | Event.endE _ _ _ D _ => !D.isEmpty
  | _ => false

/-- Is this event an invocation return of token `t` that deferred it? -/
def isDeferEndOf (t : Nat) : Event → Bool
  | Event.endE u _ _ D _ => decide (u = t) && !D.isEmpty
  | _ => false

/-- Number of stage-callable invocations (returns) in a trace. -/
def countEnds (tr : List Event) : Nat := tr.countP isEndEv

/-- Number of pass-through invocation returns in a trace. -/
def countPassEnds (tr : List Event) : Nat := tr.countP isPassEndEv

/-- Number of deferring invocation returns in a trace. -/
def countDeferEnds (tr : List Event) : Nat := tr.countP isDeferEndEv

/-- Number of deferring invocation returns of token `t` in a trace. -/
def deferEndsOf (tr : List Event) (t : Nat) : Nat := tr.countP (isDeferEndOf t)

theorem countEnds_split (tr : List Event) :
    countEnds tr = countPassEnds tr + countDeferEnds tr := by
  induction tr with
  | nil => rfl
  | cons e tr ih =>
      unfold countEnds countPassEnds countDeferEnds at *
      rw [List.countP_cons, List.countP_cons, List.countP_cons]
      cases e with
      | nop => simpa [isEndEv, isPassEndEv, isDeferEndEv] using ih
      | startE t s c => simpa [isEndEv, isPassEndEv, isDeferEndEv] using ih
      | endE t s c D stp =>
          cases hD : D.isEmpty <;>
            simp [isEndEv, isPassEndEv, isDeferEndEv, hD] <;> omega

theorem sum_set_succ (xs : List Nat) (t : Nat) (h : t < xs.length) :
    (xs.set t (xs.getD t 0 + 1)).sum = xs.sum + 1 := by
  induction xs generalizing t with
  | nil => simp at h
  | cons x xs ih =>
      cases t with
      | zero =>
          simp only [List.set_cons_zero, List.sum_cons, List.getD_cons_zero]
          omega
      | succ t =>
          have ht : t < xs.length := by simpa using h
          simp only [List.set_cons_succ, List.sum_cons, List.getD_cons_succ, ih t ht]
          omega

/-- One error-free step changes the total progress sum by exactly one per
pass-through invocation return. -/
theorem step_pass_sum (P : Pipeline) (st : PState) (ch : Choice) (hInv : Inv P st)
    (he' : (stepE P st ch).1.error = none) :
    (stepE P st ch).1.prog.sum =
      st.prog.sum + (if isPassEndEv (stepE P st ch).2 then 1 else 0) := by
  have hm := step_cases P st ch (fun st₂ ev => st₂.error = none →
      st₂.prog.sum = st.prog.sum + (if isPassEndEv ev then 1 else 0)) ?_ ?_ ?_ ?_ ?_ ?_
  · exact hm he'
  · intro _
    simp [isPassEndEv]
  · intro l he hl hg hch _
    simp [isPassEndEv, List.sum_append]
  · intro l t he hl hg hch _
    simp [isPassEndEv]
  · intro l t he hl hch
    have htl : t < st.prog.length := by
      rw [hInv.progLen]
      exact (hInv.resMinted l _ hl t ((resident_executing_iff t t).mpr rfl)).1
    refine applyFinish_cases P st l t (st.progOf t) _ (fun st₂ => st₂.error = none →
      st₂.prog.sum = st.prog.sum +
        (if isPassEndEv (Event.endE t (st.progOf t) (st.dcntOf t)
          (P.callAt (st.progOf t) ⟨t, l, st.progOf t, st.dcntOf t⟩).defers
          (P.callAt (st.progOf t) ⟨t, l, st.progOf t, st.dcntOf t⟩).stop) then 1 else 0))
      ?_ ?_ ?_ ?_ ?_
    · intro _ _ he₂
      exact absurd he₂ (by simp)
    · intro _ he₂
      exact absurd he₂ (by simp)
    · intro hD _ _
      simp only [passPost_prog, isPassEndEv, hD, List.isEmpty_nil, if_true]
      exact sum_set_succ st.prog t htl
    · intro _ _ _ _ he₂
      exact absurd he₂ (by simp)
    · intro hD _ _ _ _
      have hDD : (P.callAt (st.progOf t)
          ⟨t, l, st.progOf t, st.dcntOf t⟩).defers.isEmpty = false := by
        cases hIE : (P.callAt (st.progOf t) ⟨t, l, st.progOf t, st.dcntOf t⟩).defers.isEmpty
        · rfl
        · exact absurd (List.isEmpty_iff.mp hIE) hD
      simp [isPassEndEv, hDD]
  · intro l k r he hl hk hg hch _
    simp [isPassEndEv]
  · intro he hg hch he₂
    exact absurd he₂ (by simp)

/-- Progress-sum accounting along an error-free run. -/
theorem pass_count_from (P : Pipeline) (cs : List Choice) (st : PState) (hInv : Inv P st)
    (herr : (runFrom P st cs).1.error = none) :
    (runFrom P st cs).1.prog.sum = st.prog.sum + countPassEnds (runFrom P st cs).2 := by
  induction cs generalizing st with
  | nil => simp [runFrom, countPassEnds]
  | cons c cs ih =>
      have herr' : (runFrom P (stepE P st c).1 cs).1.error = none := herr
      have hmid_err : (stepE P st c).1.error = none := by
        by_contra hne
        exact (run_stepLe P cs (stepE P st c).1).error_mono hne herr'
      have hstep := step_pass_sum P st c hInv hmid_err
      have hih := ih (stepE P st c).1 (inv_step P st c hInv) herr'
      show (runFrom P (stepE P st c).1 cs).1.prog.sum =
        st.prog.sum + countPassEnds ((stepE P st c).2 :: (runFrom P (stepE P st c).1 cs).2)
      unfold countPassEnds at hih ⊢
      rw [List.countP_cons]
      cases hp : isPassEndEv (stepE P st c).2 <;> simp [hp] at hstep ⊢ <;> omega

/-! ### Claim C4 (amended): invocation bound -/

/-- C4 (amended): for every run in which `stop()` was declared and no error
(`DependencyCycle` / `UnresolvableForwardDeferral` / `ProtocolViolation`)
occurred, ending in the terminal drained state, the number of stage-callable
invocations is bounded by (stages × minted tokens) *plus the number of
deferring invocations* — each deferral costs exactly one extra re-invocation,
so the spec's bound of stages × minted tokens alone holds only for
deferral-free runs (see the counterexample). -/
theorem spec_c4 (P : Pipeline) (cs : List Choice)
    (hstop : (runState P cs).stopped ≠ none)
    (herr : (runState P cs).error = none)
    (hdr : (runState P cs).drained = true) :
    countEnds (runTrace P cs) ≤
      P.numStages * (runState P cs).cursor + countDeferEnds (runTrace P cs) := by
  have hpc : (runState P cs).prog.sum = countPassEnds (runTrace P cs) := by
    have := pass_count_from P cs (initState P) (inv_init P) herr
    simpa [initState] using this
  have hsum_le : (runState P cs).prog.sum ≤ P.numStages * (runState P cs).cursor := by
    have hlen : (runState P cs).prog.length = (runState P cs).cursor :=
      (inv_run P cs).progLen
    have hb : ∀ x ∈ (runState P cs).prog, x ≤ P.numStages := by
      intro x hx
      obtain ⟨i, hi, hget⟩ := List.mem_iff_getElem.mp hx
      have hle := (inv_run P cs).progLe i
      have : (runState P cs).prog.getD i 0 = x := by
        rw [List.getD_eq_getElem _ _ hi]
        exact hget
      rw [PState.progOf] at hle
      omega
    have := List.sum_le_card_nsmul (runState P cs).prog P.numStages hb
    rw [smul_eq_mul, hlen, Nat.mul_comm] at this
    omega
  have hsplit := countEnds_split (runTrace P cs)
  omega

/-! ### Per-token deferral accounting -/

theorem resumePost_isBlocked_eq (st : PState) (l u : Nat) (r : BlockedRec)
    (h : u ≠ r.token) : (resumePost st l r).isBlocked u = st.isBlocked u := by
  cases hb : st.isBlocked u
  · cases hb' : (resumePost st l r).isBlocked u
    · rfl
    · have := resumePost_isBlocked_of st l u r hb'
      rw [hb] at this
      exact Bool.noConfusion this
  · exact resumePost_isBlocked_ne st l u r h hb

/-- One error-free step changes `dcnt(t) + [t blocked]` by exactly one per
deferring invocation return of `t`. -/
theorem step_dcnt_count (P : Pipeline) (st : PState) (ch : Choice) (t : Nat)
    (hInv : Inv P st) (he' : (stepE P st ch).1.error = none) :
    (stepE P st ch).1.dcntOf t + ((stepE P st ch).1.isBlocked t).toNat =
      st.dcntOf t + (st.isBlocked t).toNat +
        (if isDeferEndOf t (stepE P st ch).2 then 1 else 0) := by
  have hm := step_cases P st ch (fun st₂ ev => st₂.error = none →
      st₂.dcntOf t + (st₂.isBlocked t).toNat =
        st.dcntOf t + (st.isBlocked t).toNat +
          (if isDeferEndOf t ev then 1 else 0)) ?_ ?_ ?_ ?_ ?_ ?_
  · exact hm he'
  · intro _
    simp [isDeferEndOf]
  · intro l he hl hg hch _
    simp [isDeferEndOf]
  · intro l t₀ he hl hg hch _
    simp [isDeferEndOf]
  · intro l t₀ he hl hch
    have hres₀ : (LaneState.executing t₀).resident t₀ = true :=
      (resident_executing_iff t₀ t₀).mpr rfl
    refine applyFinish_cases P st l t₀ (st.progOf t₀) _ (fun st₂ => st₂.error = none →
      st₂.dcntOf t + (st₂.isBlocked t).toNat =
        st.dcntOf t + (st.isBlocked t).toNat +
          (if isDeferEndOf t (Event.endE t₀ (st.progOf t₀) (st.dcntOf t₀)
            (P.callAt (st.progOf t₀) ⟨t₀, l, st.progOf t₀, st.dcntOf t₀⟩).defers
            (P.callAt (st.progOf t₀) ⟨t₀, l, st.progOf t₀, st.dcntOf t₀⟩).stop)
            then 1 else 0)) ?_ ?_ ?_ ?_ ?_
    · intro _ _ he₂
      exact absurd he₂ (by simp)
    · intro _ he₂
      exact absurd he₂ (by simp)
    · intro hD _ _
      simp [isDeferEndOf, hD]
    · intro _ _ _ _ he₂
      exact absurd he₂ (by simp)
    · intro hD _ _ _ _
      have hDD : (P.callAt (st.progOf t₀)
          ⟨t₀, l, st.progOf t₀, st.dcntOf t₀⟩).defers.isEmpty = false := by
        cases hIE : (P.callAt (st.progOf t₀)
            ⟨t₀, l, st.progOf t₀, st.dcntOf t₀⟩).defers.isEmpty
        · rfl
        · exact absurd (List.isEmpty_iff.mp hIE) hD
      by_cases htt : t₀ = t
      · subst htt
        have hb0 : st.isBlocked t₀ = false := hInv.laneBlkDisj l _ hl t₀ hres₀
        have hb1 : (deferPost st l t₀ (st.progOf t₀)
            (P.callAt (st.progOf t₀)
              ⟨t₀, l, st.progOf t₀, st.dcntOf t₀⟩).defers.dedup
            (P.callAt (st.progOf t₀)
              ⟨t₀, l, st.progOf t₀, st.dcntOf t₀⟩).stop).isBlocked t₀ = true := by
          rw [deferPost_isBlocked]
          simp
        rw [hb0, hb1, deferPost_dcntOf]
        simp [isDeferEndOf, hDD]
      · have hbeq : (deferPost st l t₀ (st.progOf t₀)
            (P.callAt (st.progOf t₀)
              ⟨t₀, l, st.progOf t₀, st.dcntOf t₀⟩).defers.dedup
            (P.callAt (st.progOf t₀)
              ⟨t₀, l, st.progOf t₀, st.dcntOf t₀⟩).stop).isBlocked t = st.isBlocked t := by
          rw [deferPost_isBlocked]
          simp [htt]
        rw [hbeq, deferPost_dcntOf]
        simp [isDeferEndOf, htt]
  · intro l k r he hl hk hg hch _
    have hrb : st.isBlocked r.token = true :=
      (isBlocked_iff st r.token).mpr ⟨r, List.get?_mem hk, rfl⟩
    have hdl : r.token < st.dcnt.length := by
      rw [hInv.dcntLen]
      exact (hInv.blkRec r (List.get?_mem hk)).1
    by_cases hrt : r.token = t
    · subst hrt
      rw [resumePost_dcntOf_self st l r hdl, resumePost_isBlocked_self st l r, hrb]
      simp [isDeferEndOf]
    · rw [resumePost_dcntOf_ne st l t r (fun he₂ => hrt he₂.symm),
        resumePost_isBlocked_eq st l t r (fun he₂ => hrt he₂.symm)]
      simp [isDeferEndOf]
  · intro he hg hch he₂
    exact absurd he₂ (by simp)

/-- Per-token deferral accounting along an error-free run. -/
theorem dcnt_count_from (P : Pipeline) (cs : List Choice) (st : PState) (t : Nat)
    (hInv : Inv P st) (herr : (runFrom P st cs).1.error = none) :
    (runFrom P st cs).1.dcntOf t + ((runFrom P st cs).1.isBlocked t).toNat =
      st.dcntOf t + (st.isBlocked t).toNat + deferEndsOf (runFrom P st cs).2 t := by
  induction cs generalizing st with
  | nil => simp [runFrom, deferEndsOf]
  | cons c cs ih =>
      have herr' : (runFrom P (stepE P st c).1 cs).1.error = none := herr
      have hmid_err : (stepE P st c).1.error = none := by
        by_contra hne
        exact (run_stepLe P cs (stepE P st c).1).error_mono hne herr'
      have hstep := step_dcnt_count P st c t hInv hmid_err
      have hih := ih (stepE P st c).1 (inv_step P st c hInv) herr'
      show (runFrom P (stepE P st c).1 cs).1.dcntOf t +
        ((runFrom P (stepE P st c).1 cs).1.isBlocked t).toNat =
        st.dcntOf t + (st.isBlocked t).toNat +
          deferEndsOf ((stepE P st c).2 :: (runFrom P (stepE P st c).1 cs).2) t
      unfold deferEndsOf at hih ⊢
      rw [List.countP_cons]
      cases hp : isDeferEndOf t (stepE P st c).2 <;> simp [hp] at hstep ⊢ <;> omega

theorem runFrom_trace_take (P : Pipeline) (st : PState) (cs : List Choice) (k : Nat) :
    (runFrom P st cs).2.take k = (runFrom P st (cs.take k)).2 := by
  induction cs generalizing st k with
  | nil => simp [runFrom]
  | cons c cs ih =>
      cases k with
      | zero => rfl
      | succ k =>
          simp only [List.take_succ_cons, runFrom]
          exact congrArg (List.cons _) (ih (stepE P st c).1 k)

theorem trace_take_succ (P : Pipeline) (cs : List Choice) (i : Nat) (hi : i < cs.length) :
    (runTrace P cs).take (i + 1) = (runTrace P cs).take i ++ [evAt P cs i] := by
  have hlen : i < (runTrace P cs).length := by
    unfold runTrace
    rw [runFrom_snd_length]
    exact hi
  rw [List.take_succ]
  congr 1
  rw [List.getElem?_eq_getElem hlen]
  unfold evAt List.getD
  rw [List.get?_eq_getElem?, List.getElem?_eq_getElem hlen]
  rfl

/-- Per-token deferral accounting at any error-free point of a run: the
deferral count plus the pending-deferral indicator equals the number of
deferring returns of the token so far. -/
theorem dcnt_count_at (P : Pipeline) (cs : List Choice) (t k : Nat)
    (herr : (stAt P cs k).error = none) :
    (stAt P cs k).dcntOf t + ((stAt P cs k).isBlocked t).toNat =
      deferEndsOf ((runTrace P cs).take k) t := by
  have h := dcnt_count_from P (cs.take k) (initState P) t (inv_init P) herr
  have htr : (runTrace P cs).take k = (runFrom P (initState P) (cs.take k)).2 :=
    runFrom_trace_take P (initState P) cs k
  rw [htr]
  simpa [initState, PState.dcntOf, PState.isBlocked] using h

/-- The possible outcomes of an invocation return for its token: the run
errors, the token advances one stage, or the token enters the deferral graph
with its count unchanged. -/
theorem applyFinish_outcome (P : Pipeline) (st : PState) (l t : Nat) (res : CallResult)
    (hInv : Inv P st) (hl : st.lanes.get? l = some (LaneState.executing t)) :
    (applyFinish P st l t (st.progOf t) res).error ≠ none ∨
    (applyFinish P st l t (st.progOf t) res).progOf t = st.progOf t + 1 ∨
    ((applyFinish P st l t (st.progOf t) res).isBlocked t = true ∧
      (applyFinish P st l t (st.progOf t) res).dcntOf t = st.dcntOf t) := by
  have htl : t < st.prog.length := by
    rw [hInv.progLen]
    exact (hInv.resMinted l _ hl t ((resident_executing_iff t t).mpr rfl)).1
  refine applyFinish_cases P st l t (st.progOf t) res (fun st₂ =>
    st₂.error ≠ none ∨ st₂.progOf t = st.progOf t + 1 ∨
      (st₂.isBlocked t = true ∧ st₂.dcntOf t = st.dcntOf t)) ?_ ?_ ?_ ?_ ?_
  · intro _ _
    exact Or.inl (by simp)
  · intro _
    exact Or.inl (by simp)
  · intro _ _
    exact Or.inr (Or.inl (getD_set_self _ _ _ htl))
  · intro _ _ _ _
    exact Or.inl (by simp)
  · intro _ _ _ _
    refine Or.inr (Or.inr ⟨?_, rfl⟩)
    rw [deferPost_isBlocked]
    simp

/-- Facts about the post-state of an error-free deferring invocation return:
the token stays at its stage, its deferral count is unchanged, and its new
deferral-graph record carries exactly the (deduplicated) set of this
invocation's `defer` calls. -/
theorem endE_defer_post (P : Pipeline) (st : PState) (ch : Choice) (st' : PState)
    (t s c : Nat) (D : List Nat) (stp : Bool) (hInv : Inv P st)
    (h : stepE P st ch = (st', Event.endE t s c D stp)) (hD : D ≠ [])
    (he' : st'.error = none) :
    s = st.progOf t ∧ c = st.dcntOf t ∧
    (⟨t, s, D.dedup⟩ : BlockedRec) ∈ st'.blocked ∧
    st'.progOf t = s ∧ st'.dcntOf t = c ∧
    st'.blockersOf t = D.dedup ∧ t ∉ D := by
  obtain ⟨he, hs, hc, l, hl, hres, hst⟩ := endE_inv P st ch st' t s c D stp h
  have hblk0 : st.isBlocked t = false :=
    hInv.laneBlkDisj l _ hl t ((resident_executing_iff t t).mpr rfl)
  subst hst
  subst hs
  subst hc
  have hmain := applyFinish_cases P st l t (st.progOf t) ⟨D, stp⟩ (fun st₂ =>
    st₂.error = none →
    ((⟨t, st.progOf t, D.dedup⟩ : BlockedRec) ∈ st₂.blocked ∧
      st₂.progOf t = st.progOf t ∧ st₂.dcntOf t = st.dcntOf t ∧
      st₂.blockersOf t = D.dedup ∧ t ∉ D)) ?_ ?_ ?_ ?_ ?_
  · obtain ⟨m1, m2, m3, m4, m5⟩ := hmain he'
    exact ⟨rfl, rfl, m1, m2, m3, m4, m5⟩
  · intro _ _ he₂
    exact absurd he₂ (by simp)
  · intro _ he₂
    exact absurd he₂ (by simp)
  · intro hDe _ _
    exact absurd hDe hD
  · intro _ _ _ _ he₂
    exact absurd he₂ (by simp)
  · intro _ _ hself hcyc _
    have htD : t ∉ D := by
      intro hm
      have : D.any (fun d => decide (d = t)) = true :=
        List.any_eq_true.mpr ⟨t, hm, by simp⟩
      rw [this] at hself
      exact Bool.noConfusion hself
    refine ⟨?_, rfl, rfl, ?_, htD⟩
    · simp only [deferPost_blocked]
      exact List.mem_append_right _ (List.mem_singleton.mpr rfl)
    · show (deferPost st l t (st.progOf t) D.dedup stp).blockersOf t = D.dedup
      unfold PState.blockersOf
      simp only [deferPost_blocked]
      rw [find?_append_none]
      · simp
      · rw [List.find?_eq_none]
        intro r hr
        rw [isBlocked_false_iff] at hblk0
        simp only [decide_eq_true_eq]
        exact hblk0 r hr

/-- Two begin events of the same token at the same stage with the same
positive deferral count cannot occur at distinct steps. -/
theorem startE_lt_absurd (P : Pipeline) (cs : List Choice) (t s c₁ j₁ j₂ : Nat)
    (h₂len : j₂ < cs.length) (hlt : j₁ < j₂)
    (h₁ : evAt P cs j₁ = Event.startE t s c₁) (h₂ : evAt P cs j₂ = Event.startE t s c₁)
    (hc : 1 ≤ c₁) : False := by
  have h₁len : j₁ < cs.length := by omega
  have hp₁ := step_pair P cs j₁ h₁len
  rw [h₁] at hp₁
  have hpost₁ := startE_post P _ _ _ _ _ _ (inv_at P cs j₁) hp₁
  have hp₂ := step_pair P cs j₂ h₂len
  rw [h₂] at hp₂
  obtain ⟨he₂pre, hg₂, hcases₂⟩ := startE_inv P _ _ _ _ _ _ hp₂
  rcases hcases₂ with ⟨l₂, hl₂, hst₂, ht₂, hs₂, hc₂, hstop₂⟩ | ⟨l₂, hl₂, hst₂, hs₂, hc₂⟩ |
    ⟨l₂, r₂, hl₂, hr₂, hrt₂, hrs₂, hc₂, hclr₂, hst₂⟩
  · omega
  · -- a start of a held token: t must have finished its `j₁` invocation first
    rcases exec_run P cs t (j₁ + 1) j₂ (by omega) (by omega) hpost₁.2.2.2.1 with
      ⟨⟨la, hla⟩, hpm, hdm⟩ | ⟨j', D', stp', hj'1, hj'2, hj'3⟩
    · by_cases hll : la = l₂
      · subst hll
        rw [hla] at hl₂
        exact LaneState.noConfusion (Option.some.inj hl₂)
      · exact hll ((inv_at P cs j₂).laneLaneDisj la l₂ _ _ t hla hl₂
          ((resident_executing_iff t t).mpr rfl) ((resident_holding_iff t t).mpr rfl))
    · have hj'len : j' < cs.length := by omega
      rw [hpost₁.1, hpost₁.2.1] at hj'3
      have hp' := step_pair P cs j' hj'len
      rw [hj'3] at hp'
      obtain ⟨he', hs', hc', l', hl', hres', hst'⟩ := endE_inv P _ _ _ _ _ _ _ _ hp'
      have houtcome := applyFinish_outcome P (stAt P cs j') l' t
        ⟨D', stp'⟩ (inv_at P cs j') hl'
      rw [← hs'] at houtcome
      rw [← hst'] at houtcome
      rcases houtcome with herr' | hpass' | ⟨hbl', hdc'⟩
      · have := (stAt_stepLe P cs (j' + 1) j₂ (by omega)).error_mono herr'
        exact this he₂pre
      · have hmono := (stAt_stepLe P cs (j' + 1) j₂ (by omega)).prog_le t
        rw [hpass'] at hmono
        omega
      · obtain ⟨r', hr', hrt'⟩ := (isBlocked_iff _ t).mp hbl'
        rcases record_run P cs r' (j' + 1) j₂ (by omega) (by omega) hr' with
          ⟨hrm', _⟩ | ⟨j'', hj''1, hj''2, hj''3, _⟩
        · have hbl₂ : (stAt P cs j₂).isBlocked t = true :=
            (isBlocked_iff _ t).mpr ⟨r', hrm', hrt'⟩
          have := (inv_at P cs j₂).laneBlkDisj l₂ _ hl₂ t
            ((resident_holding_iff t t).mpr rfl)
          rw [this] at hbl₂
          exact Bool.noConfusion hbl₂
        · have hj''len : j'' < cs.length := by omega
          have hp'' := step_pair P cs j'' hj''len
          rw [hj''3] at hp''
          have hpost'' := startE_post P _ _ _ _ _ _ (inv_at P cs j'') hp''
          have hd'' : (stAt P cs (j'' + 1)).dcntOf r'.token =
              (stAt P cs (j' + 1)).dcntOf r'.token + 1 := hpost''.2.1
          have hmono := (stAt_stepLe P cs (j'' + 1) j₂ (by omega)).dcnt_le r'.token
          rw [hrt'] at hd'' hmono
          rw [hdc', ← hc'] at hd''
          omega
  · have hmono := (stAt_stepLe P cs (j₁ + 1) j₂ (by omega)).dcnt_le t
    rw [hpost₁.2.1] at hmono
    omega

/-- A begin event of a token at a given stage with a given positive deferral
count occurs at most once in a run. -/
theorem startE_unique (P : Pipeline) (cs : List Choice) (t s c₁ j₁ j₂ : Nat)
    (h₁len : j₁ < cs.length) (h₂len : j₂ < cs.length)
    (h₁ : evAt P cs j₁ = Event.startE t s c₁) (h₂ : evAt P cs j₂ = Event.startE t s c₁)
    (hc : 1 ≤ c₁) : j₁ = j₂ := by
  rcases Nat.lt_trichotomy j₁ j₂ with hlt | heq | hgt
  · exact absurd (startE_lt_absurd P cs t s c₁ j₁ j₂ h₂len hlt h₁ h₂ hc) (fun h => h)
  · exact heq
  · exact absurd (startE_lt_absurd P cs t s c₁ j₂ j₁ h₁len hgt h₂ h₁ hc) (fun h => h)

/-! ### Claim C1: deferral resolution -/

/-- C1: if an invocation of token `t` at stage `s` (observing deferral count
`c`) returns having called `defer` at least once (deferred-by set `D`), in an
error-free run, then: the token stays at stage `s`; its deferral-graph record
carries exactly this invocation's deduplicated deferred-by set (the set is
reset, not accumulated across waves); a re-invocation of `t` at stage `s` with
count `c + 1` happens at most once in the whole run; and if the run reaches
the drained state, exactly one such re-invocation occurs — after every id in
`D` has cleared (advanced past stage `s`), at the same stage `s`, observing
`num_deferrals() = c + 1`, and it is the first re-invocation of `t` after the
deferral. -/
theorem spec_c1 (P : Pipeline) (cs : List Choice) (i t s c : Nat) (D : List Nat)
    (stp : Bool) (herr : (runState P cs).error = none) (hi : i < cs.length)
    (hev : evAt P cs i = Event.endE t s c D stp) (hD : D ≠ []) :
    (stAt P cs (i + 1)).progOf t = s ∧
    (stAt P cs (i + 1)).blockersOf t = D.dedup ∧
    (∀ j₁ j₂, j₁ < cs.length → j₂ < cs.length →
      evAt P cs j₁ = Event.startE t s (c + 1) →
      evAt P cs j₂ = Event.startE t s (c + 1) → j₁ = j₂) ∧
    ((runState P cs).drained = true →
      ∃ j, i < j ∧ j < cs.length ∧ evAt P cs j = Event.startE t s (c + 1) ∧
        (∀ d ∈ D, s < (stAt P cs j).progOf d) ∧
        (∀ j' s' c', i < j' → j' < j → evAt P cs j' ≠ Event.startE t s' c')) := by
  have hpair := step_pair P cs i hi
  rw [hev] at hpair
  have herr1 : (stAt P cs (i + 1)).error = none := stAt_error_none P cs (i + 1) herr
  obtain ⟨hs, hc, hmem, hp1, hd1, hbo, htD⟩ :=
    endE_defer_post P _ _ _ t s c D stp (inv_at P cs i) hpair hD herr1
  have huniq : ∀ j₁ j₂, j₁ < cs.length → j₂ < cs.length →
      evAt P cs j₁ = Event.startE t s (c + 1) →
      evAt P cs j₂ = Event.startE t s (c + 1) → j₁ = j₂ :=
    fun j₁ j₂ hl₁ hl₂ he₁ he₂ =>
      startE_unique P cs t s (c + 1) j₁ j₂ hl₁ hl₂ he₁ he₂ (by omega)
  refine ⟨hp1, hbo, huniq, ?_⟩
  intro hdr
  obtain ⟨_, _, hbempty, _⟩ := drained_spec _ hdr
  rcases record_run P cs ⟨t, s, D.dedup⟩ (i + 1) cs.length (by omega) (Nat.le_refl _)
    hmem with ⟨hrm, _⟩ | ⟨j, hj1, hj2, hj3, hj4⟩
  · rw [stAt_final P cs cs.length (Nat.le_refl _)] at hrm
    rw [hbempty] at hrm
    exact absurd hrm (List.not_mem_nil _)
  · simp only at hj3 hj4
    rw [hd1] at hj3
    refine ⟨j, by omega, hj2, hj3, ?_, ?_⟩
    · intro d hd
      exact hj4 d (List.mem_dedup.mpr hd)
    · intro j' s' c' hij' hj'j hev'
      have hj'len : j' < cs.length := by omega
      rcases record_run P cs ⟨t, s, D.dedup⟩ (i + 1) j' (by omega) (by omega) hmem with
        ⟨hrm', hdm'⟩ | ⟨j₀, hj₀1, hj₀2, hj₀3, _⟩
      · have hp' := step_pair P cs j' hj'len
        rw [hev'] at hp'
        obtain ⟨he'pre, hg', hcases'⟩ := startE_inv P _ _ _ _ _ _ hp'
        rcases hcases' with ⟨l', hl', hst', ht', hs', hc', hstop'⟩ |
          ⟨l', hl', hst', hs', hc'⟩ |
          ⟨l', r', hl', hr', hrt', hrs', hc', hclr', hst'⟩
        · have := ((inv_at P cs j').blkRec _ hrm').1
          simp only at this
          omega
        · have hbl' : (stAt P cs j').isBlocked t = true :=
            (isBlocked_iff _ t).mpr ⟨_, hrm', rfl⟩
          have := (inv_at P cs j').laneBlkDisj l' _ hl' t
            ((resident_holding_iff t t).mpr rfl)
          rw [this] at hbl'
          exact Bool.noConfusion hbl'
        · have hr'eq : r' = ⟨t, s, D.dedup⟩ :=
            blocked_token_unique (inv_at P cs j') hr' hrm' (by rw [hrt'])
          subst hr'eq
          simp only at hrt' hrs'
          simp only at hdm'
          rw [hd1] at hdm'
          have hev'' : evAt P cs j' = Event.startE t s (c + 1) := by
            rw [hev', ← hrs', hc', hdm']
          have := huniq j' j hj'len hj2 hev'' hj3
          omega
      · have hj₀len : j₀ < cs.length := by omega
        simp only at hj₀3
        rw [hd1] at hj₀3
        have := huniq j₀ j hj₀len hj2 hj₀3 hj3
        omega

/-- A deterministic scheduler used to build concrete runs: finish any in-flight
invocation first, else start a held token whose gate is open, else resume a
cleared deferral-graph entry on an idle lane, else mint.  Returns `none` when
no choice fires. -/
def autoChoice (P : Pipeline) (st : PState) : Option Choice :=
  match st.lanes.findIdx? (fun ls =>
      match ls with
      | LaneState.executing _ => true
      | _ => false) with
  | some l => some (Choice.finish l)
  | none =>
    match st.lanes.findIdx? (fun ls =>
        match ls with
        | LaneState.holding t => gate P st t (st.progOf t)
        | _ => false) with
    | some l => some (Choice.start l)
    | none =>
      match st.lanes.findIdx? (fun ls => ls = LaneState.idle) with
      | some l =>
          match (List.range st.blocked.length).find? (fun k =>
              match st.blocked.get? k with
              | some r =>
                  r.blockers.all (fun d => st.clearedFor r.stage d) &&
                    gate P st r.token r.stage
              | none => false) with
          | some k => some (Choice.resume l k)
          | none =>
              if st.stopped = none && decide (0 < P.numStages) &&
                  gate P st st.cursor 0 then
                some (Choice.mint l)
              else none
      | none => none

/-- Iterate `autoChoice` for at most `fuel` steps, collecting the schedule. -/
def autoChoices (P : Pipeline) : Nat → PState → List Choice
  | 0, _ => []
  | fuel + 1, st =>
      match autoChoice P st with
      | some ch => ch :: autoChoices P fuel (stepE P st ch).1
      | none => []

/-- The schedule the deterministic driver produces from the initial state. -/
def autoSchedule (P : Pipeline) (fuel : Nat) : List Choice :=
  autoChoices P fuel (initState P)

/-- Stage-0 callable of `examples/workflow/parallel_deferred_pipeline.cc`:
stop at token 15; token 5 defers on 2 and 7 first, then on 9, then passes;
token 2 defers on 8 first, then passes; every other token passes. -/
def exampleCall0 (c : TokenCtx) : CallResult :=
  if c.token = 15 then ⟨[], true⟩
  else if c.token = 5 then
    match c.count with
    | 0 => ⟨[2, 7], false⟩
    | 1 => ⟨[9], false⟩
    | _ => ⟨[], false⟩
  else if c.token = 2 then
    match c.count with
    | 0 => ⟨[8], false⟩
    | _ => ⟨[], false⟩
  else ⟨[], false⟩

/-- A stage callable that always passes the token through. -/
def passCall : TokenCtx → CallResult := fun _ => ⟨[], false⟩

/-- The example's pipeline: 4 lanes, three `SERIAL` (ordered) stages, first
stage `exampleCall0`, the remaining two pass-through. -/
def examplePipeline : Pipeline :=
  ⟨4, [⟨StageKind.ordered, exampleCall0⟩,
       ⟨StageKind.ordered, passCall⟩,
       ⟨StageKind.ordered, passCall⟩]⟩

/-- The driver schedule that drains the example pipeline. -/
def exSched : List Choice := autoSchedule examplePipeline 300

/-- Stage-0 callable of a 1-lane, 1-stage pipeline in which token 0 first
defers on the not-yet-minted token 1 and then, on its re-invocation, calls
`stop()`; every other token passes. -/
def stopAfterDeferCall (c : TokenCtx) : CallResult :=
  if c.token = 0 then
    (if c.count = 0 then ⟨[1], false⟩ else ⟨[], true⟩)
  else ⟨[], false⟩

/-- A 1-lane pipeline with one ordered stage whose stage-0 callable stops on a
re-invocation of a previously deferred token. -/
def stopAfterDeferPipeline : Pipeline :=
  ⟨1, [⟨StageKind.ordered, stopAfterDeferCall⟩]⟩

/-- The driver schedule that drains `stopAfterDeferPipeline`. -/
def ce3Sched : List Choice := autoSchedule stopAfterDeferPipeline 20

/-- Stage-0 callable of a 1-lane, 1-stage pipeline that stops at token 1 on
its first invocation. -/
def simpleStopCall (c : TokenCtx) : CallResult :=
  if c.token = 1 then ⟨[], true⟩ else ⟨[], false⟩

/-- A 1-lane pipeline with one ordered stage stopping at token 1. -/
def simpleStopPipeline : Pipeline :=
  ⟨1, [⟨StageKind.ordered, simpleStopCall⟩]⟩

/-- The driver schedule that drains `simpleStopPipeline`. -/
def ssSched : List Choice := autoSchedule simpleStopPipeline 20

/-- Stage-0 callable of a 1-lane, 1-stage pipeline whose token 0 defers on
itself: a protocol violation. -/
def selfDeferCall (c : TokenCtx) : CallResult :=
  if c.token = 0 then ⟨[0], false⟩ else ⟨[], false⟩

/-- A 1-lane pipeline with one ordered stage whose token 0 defers on itself. -/
def selfDeferPipeline : Pipeline :=
  ⟨1, [⟨StageKind.ordered, selfDeferCall⟩]⟩

/-- Scenario B's stage-0 callable: token 2 is deferred by token 8 on its first
invocation; token 9 stops the pipeline; every other token passes. -/
def scenarioBCall0 (c : TokenCtx) : CallResult :=
  if c.token = 9 then ⟨[], true⟩
  else if c.token = 2 then
    (match c.count with
     | 0 => ⟨[8], false⟩
     | _ => ⟨[], false⟩)
  else ⟨[], false⟩

/-- Scenario B's pipeline: 4 lanes, stages [ORDERED, UNORDERED, ORDERED]. -/
def scenarioBPipeline : Pipeline :=
  ⟨4, [⟨StageKind.ordered, scenarioBCall0⟩,
       ⟨StageKind.unordered, passCall⟩,
       ⟨StageKind.ordered, passCall⟩]⟩

/-- The driver schedule that drains `scenarioBPipeline`. -/
def sbSched : List Choice := autoSchedule scenarioBPipeline 300

/-- Is this event an invocation return of token `t` at stage `s`? -/
def isEndOfAt (t s : Nat) : Event → Bool
  | Event.endE u s' _ _ _ => decide (u = t) && decide (s' = s)
  | _ => false

/-- Is this event an invocation begin of token `t` at stage `s`? -/
def isStartOfAt (t s : Nat) : Event → Bool
  | Event.startE u s' _ => decide (u = t) && decide (s' = s)
  | _ => false

/-! ### Claim C5: scenario C, token 5's three invocations -/

/-- C5: in the example run (token 5 deferred by {2,7} on its first stage-0
invocation, by {9} on its second with `num_deferrals() = 1`, and passed on its
third with `num_deferrals() = 2`), the run drains and token 5's stage-0
callable is invoked exactly three times, with exactly those deferral sets, in
that order, observing deferral counts 0, 1, 2. -/
theorem spec_c5 :
    (runState examplePipeline exSched).drained = true ∧
    (runTrace examplePipeline exSched).filter (isEndOfAt 5 0) =
      [Event.endE 5 0 0 [2, 7] false, Event.endE 5 0 1 [9] false,
       Event.endE 5 0 2 [] false] := by
  constructor
  · decide
  · decide

/-! ### Claim C10: deferral count persists across stages -/

/-- C10: whenever a stage callable is invoked (at any stage), the deferral
count it observes equals the token's cumulative number of deferring returns so
far — the count travels with the token across stages and is never reset; in
particular, in the example run the stage-1 invocations of tokens 2 and 5
observe counts 1 and 2. -/
theorem spec_c10 :
    (∀ (P : Pipeline) (cs : List Choice) (i t s c : Nat),
      (runState P cs).error = none → i < cs.length →
      evAt P cs i = Event.startE t s c →
      c = deferEndsOf ((runTrace P cs).take i) t) ∧
    (runTrace examplePipeline exSched).filter (isStartOfAt 2 1) =
      [Event.startE 2 1 1] ∧
    (runTrace examplePipeline exSched).filter (isStartOfAt 5 1) =
      [Event.startE 5 1 2] := by
  refine ⟨?_, by decide, by decide⟩
  intro P cs i t s c herr hi hev
  have hpair := step_pair P cs i hi
  rw [hev] at hpair
  have hpost := startE_post P _ _ _ _ _ _ (inv_at P cs i) hpair
  have herr1 : (stAt P cs (i + 1)).error = none := stAt_error_none P cs (i + 1) herr
  have hcount := dcnt_count_at P cs t (i + 1) herr1
  have hnb : (stAt P cs (i + 1)).isBlocked t = false := by
    obtain ⟨l, hl⟩ := hpost.2.2.2.1
    exact (inv_at P cs (i + 1)).laneBlkDisj l _ hl t ((resident_executing_iff t t).mpr rfl)
  rw [hpost.2.1, hnb] at hcount
  rw [trace_take_succ P cs i hi] at hcount
  unfold deferEndsOf at hcount ⊢
  rw [List.countP_append] at hcount
  rw [hev] at hcount
  simp only [List.countP_cons, List.countP_nil, isDeferEndOf] at hcount
  simpa using hcount

/-! ### Counterexample to C3 as stated -/

/-- Counterexample to C3 as stated: in `stopAfterDeferPipeline`, token 0 defers
on the not-yet-minted token 1 at stage 0, token 1 is then minted and passes,
and token 0's re-invocation calls `stop()`.  The run drains with `stop()`
having been invoked inside stage 0 for token `T = 0` (the `endE 0 0 1 [] true`
event at step 5), yet the cursor is 2: token 1 > T was minted, so "T is the
last token minted" is false. -/
theorem spec_c3_counterexample :
    evAt stopAfterDeferPipeline ce3Sched 5 = Event.endE 0 0 1 [] true ∧
    (runState stopAfterDeferPipeline ce3Sched).drained = true ∧
    (runState stopAfterDeferPipeline ce3Sched).stopped = some 0 ∧
    (runState stopAfterDeferPipeline ce3Sched).cursor = 2 ∧
    ¬((runState stopAfterDeferPipeline ce3Sched).cursor = 0 + 1) := by
  refine ⟨by decide, by decide, by decide, by decide, by decide⟩

/-! ### Counterexample to C4 as stated -/

/-- Counterexample to C4 as stated: the drained, error-free
`stopAfterDeferPipeline` run performs 3 stage-callable invocations, while
stages × minted tokens = 1 × 2 = 2 — the claimed bound fails as soon as a
deferral occurs (each deferral costs one extra re-invocation). -/
theorem spec_c4_counterexample :
    (runState stopAfterDeferPipeline ce3Sched).drained = true ∧
    (runState stopAfterDeferPipeline ce3Sched).error = none ∧
    (runState stopAfterDeferPipeline ce3Sched).stopped ≠ none ∧
    countEnds (runTrace stopAfterDeferPipeline ce3Sched) = 3 ∧
    stopAfterDeferPipeline.numStages * (runState stopAfterDeferPipeline ce3Sched).cursor
      = 2 ∧
    ¬(countEnds (runTrace stopAfterDeferPipeline ce3Sched) ≤
      stopAfterDeferPipeline.numStages *
        (runState stopAfterDeferPipeline ce3Sched).cursor) := by
  refine ⟨by decide, by decide, by decide, by decide, by decide, by decide⟩

/-! ### Claim C6: scenario B, token 2 deferred by token 8 -/

/-- Scenario invariant for `scenarioBPipeline`: token 2 passes stage 0 only
after being resumed (count ≥ 1), it is resumed only after token 8 has passed
stage 0, its count never exceeds 1, and its only possible deferral-graph
record is `⟨2, 0, [8]⟩`, created while its count is 0. -/
def InvB (st : PState) : Prop :=
  (1 ≤ st.progOf 2 → 1 ≤ st.dcntOf 2) ∧
  (1 ≤ st.dcntOf 2 → 1 ≤ st.progOf 8) ∧
  st.dcntOf 2 ≤ 1 ∧
  (∀ r ∈ st.blocked, r.token = 2 → r.stage = 0 ∧ r.blockers = [8] ∧ st.dcntOf 2 = 0)

theorem callB_pos (s : Nat) (c : TokenCtx) (hs : 1 ≤ s) :
    scenarioBPipeline.callAt s c = ⟨[], false⟩ := by
  match s, hs with
  | 1, _ => rfl
  | 2, _ => rfl
  | n + 3, _ => rfl

theorem invB_step (st : PState) (ch : Choice) (hInv : Inv scenarioBPipeline st)
    (h : InvB st) : InvB (stepE scenarioBPipeline st ch).1 := by
  obtain ⟨b1, b2, b3, b4⟩ := h
  refine step_cases scenarioBPipeline st ch (fun st₂ _ => InvB st₂) ⟨b1, b2, b3, b4⟩
    ?_ ?_ ?_ ?_ ?_
  · intro l he hl hg hch
    refine ⟨?_, ?_, ?_, ?_⟩
    · intro hp
      rw [mintPost_progOf] at hp
      rw [mintPost_dcntOf]
      exact b1 hp
    · intro hd
      rw [mintPost_dcntOf] at hd
      rw [mintPost_progOf]
      exact b2 hd
    · rw [mintPost_dcntOf]
      exact b3
    · intro r hr h2
      obtain ⟨x1, x2, x3⟩ := b4 r hr h2
      exact ⟨x1, x2, by rw [mintPost_dcntOf]; exact x3⟩
  · intro l t he hl hg hch
    exact ⟨b1, b2, b3, b4⟩
  · intro l t₀ he hl hch
    have h2l : t₀ = 2 → 2 < st.prog.length := by
      intro ht
      rw [hInv.progLen]
      rw [← ht]
      exact (hInv.resMinted l _ hl t₀ ((resident_executing_iff t₀ t₀).mpr rfl)).1
    refine applyFinish_cases scenarioBPipeline st l t₀ (st.progOf t₀) _
      (fun st₂ => InvB st₂) ?_ ?_ ?_ ?_ ?_
    · intro _ _
      exact ⟨b1, b2, b3, b4⟩
    · intro _
      exact ⟨b1, b2, b3, b4⟩
    · intro hDe hns
      by_cases ht2 : t₀ = 2
      · subst ht2
        have hd2 : 1 ≤ st.dcntOf 2 := by
          by_cases hs0 : st.progOf 2 = 0
          · by_cases hd0 : st.dcntOf 2 = 0
            · rw [hs0] at hDe
              simp [Pipeline.callAt, scenarioBPipeline, scenarioBCall0, hd0] at hDe
            · omega
          · exact b1 (by omega)
        refine ⟨?_, ?_, ?_, ?_⟩
        · intro _
          rw [passPost_dcntOf]
          exact hd2
        · intro _
          have hx := b2 hd2
          have hle := getD_le_set_succ st.prog 2 8
          simp only [passPost_prog, PState.progOf] at hx hle ⊢
          omega
        · rw [passPost_dcntOf]
          exact b3
        · intro r hr h2
          simp only [passPost_blocked] at hr
          obtain ⟨x1, x2, x3⟩ := b4 r hr h2
          exact absurd x3 (by omega)
      · refine ⟨?_, ?_, ?_, ?_⟩
        · intro hp
          rw [passPost_dcntOf]
          simp only [passPost_prog, PState.progOf] at hp
          rw [getD_set_ne _ _ _ _ ht2] at hp
          exact b1 hp
        · intro hd
          rw [passPost_dcntOf] at hd
          have hx := b2 hd
          have hle := getD_le_set_succ st.prog t₀ 8
          simp only [passPost_prog, PState.progOf] at hx hle ⊢
          omega
        · rw [passPost_dcntOf]
          exact b3
        · intro r hr h2
          simp only [passPost_blocked] at hr
          obtain ⟨x1, x2, x3⟩ := b4 r hr h2
          exact ⟨x1, x2, by rw [passPost_dcntOf]; exact x3⟩
    · intro _ _ _ _
      exact ⟨b1, b2, b3, b4⟩
    · intro hD hns hself hcyc
      refine ⟨b1, b2, b3, ?_⟩
      intro r hr h2
      simp only [deferPost_blocked] at hr
      rcases List.mem_append.mp hr with hro | hrn
      · obtain ⟨x1, x2, x3⟩ := b4 r hro h2
        exact ⟨x1, x2, x3⟩
      · have hrr : r = ⟨t₀, st.progOf t₀,
            (scenarioBPipeline.callAt (st.progOf t₀)
              ⟨t₀, l, st.progOf t₀, st.dcntOf t₀⟩).defers.dedup⟩ := by
          simpa using hrn
        have ht2 : t₀ = 2 := by
          rw [hrr] at h2
          exact h2
        subst ht2
        have hs0 : st.progOf 2 = 0 := by
          by_contra hs
          rw [callB_pos (st.progOf 2) _ (by omega)] at hD
          exact hD rfl
        have hd0 : st.dcntOf 2 = 0 := by
          rcases hc : st.dcntOf 2 with _ | n
          · rfl
          · exfalso
            rw [hs0, hc] at hD
            simp [Pipeline.callAt, scenarioBPipeline, scenarioBCall0] at hD
        rw [hrr]
        refine ⟨hs0, ?_, hd0⟩
        rw [hs0, hd0]
        simp [Pipeline.callAt, scenarioBPipeline, scenarioBCall0]
  · intro l k r he hl hk hg hch
    have hrmem := List.get?_mem hk
    obtain ⟨hclr, hgate⟩ := resumeGuard_spec hg
    by_cases hr2 : r.token = 2
    · obtain ⟨hst0, hbl8, hdc0⟩ := b4 r hrmem hr2
      have hprog8 : 1 ≤ st.progOf 8 := by
        have := hclr 8 (by rw [hbl8]; exact List.mem_singleton.mpr rfl)
        omega
      have hdl : r.token < st.dcnt.length := by
        rw [hInv.dcntLen]
        exact (hInv.blkRec r hrmem).1
      have hpost2 : (resumePost st l r).dcntOf 2 = 1 := by
        rw [← hr2, resumePost_dcntOf_self st l r hdl, hr2, hdc0]
      refine ⟨?_, ?_, ?_, ?_⟩
      · intro _
        rw [hpost2]
      · intro _
        rw [resumePost_progOf]
        exact hprog8
      · rw [hpost2]
      · intro r' hr' h2
        have := List.of_mem_filter hr'
        rw [h2, hr2] at this
        simp at this
    · have hpost2 : (resumePost st l r).dcntOf 2 = st.dcntOf 2 :=
        resumePost_dcntOf_ne st l 2 r (fun he₂ => hr2 he₂.symm)
      refine ⟨?_, ?_, ?_, ?_⟩
      · intro hp
        rw [resumePost_progOf] at hp
        rw [hpost2]
        exact b1 hp
      · intro hd
        rw [hpost2] at hd
        rw [resumePost_progOf]
        exact b2 hd
      · rw [hpost2]
        exact b3
      · intro r' hr' h2
        simp only [resumePost_blocked] at hr'
        obtain ⟨x1, x2, x3⟩ := b4 r' (List.mem_of_mem_filter hr') h2
        exact ⟨x1, x2, by rw [hpost2]; exact x3⟩
  · intro he hg hch
    exact ⟨b1, b2, b3, b4⟩

theorem invB_at (cs : List Choice) (k : Nat) : InvB (stAt scenarioBPipeline cs k) := by
  have hmain := run_preserve scenarioBPipeline
    (fun st => Inv scenarioBPipeline st ∧ InvB st)
    (fun st ch hq => ⟨inv_step _ st ch hq.1, invB_step st ch hq.1 hq.2⟩)
    (cs.take k) (initState scenarioBPipeline)
    ⟨inv_init _, by
      refine ⟨?_, ?_, ?_, ?_⟩
      · intro hp
        simp [initState, PState.progOf] at hp
      · intro hd
        simp [initState, PState.dcntOf] at hd
      · simp [initState, PState.dcntOf]
      · intro r hr
        simp [initState] at hr⟩
  exact hmain.2

/-- C6: in scenario B (4 lanes, stages [ORDERED, UNORDERED, ORDERED], token 2
deferred by token 8 at stage 0 on its first invocation), in *every* run: token
2 never proceeds past stage 0 before token 8 has passed stage 0, and every
invocation of token 2 observes a deferral count of at most 1 — in particular
its re-invocation at stage 0 observes `num_deferrals() = 1`. -/
theorem spec_c6 (cs : List Choice) :
    (∀ k, 1 ≤ (stAt scenarioBPipeline cs k).progOf 2 →
      1 ≤ (stAt scenarioBPipeline cs k).progOf 8) ∧
    (∀ j s' c', j < cs.length →
      evAt scenarioBPipeline cs j = Event.startE 2 s' c' →
      c' ≤ 1 ∧ (0 < c' → c' = 1)) := by
  constructor
  · intro k hp
    obtain ⟨b1, b2, b3, b4⟩ := invB_at cs k
    exact b2 (b1 hp)
  · intro j s' c' hj hev
    have hpair := step_pair scenarioBPipeline cs j hj
    rw [hev] at hpair
    have hpost := startE_post scenarioBPipeline _ _ _ _ _ _ (inv_at _ cs j) hpair
    obtain ⟨b1, b2, b3, b4⟩ := invB_at cs (j + 1)
    rw [hpost.2.1] at b3
    exact ⟨b3, by omega⟩

/-! ### Concrete witnesses instantiating the claim theorems -/

/-- Witness for C1: in the concrete one-lane run, the deferring return of
token 0 at stage 0 (event index 1, deferred-by set `[1]`) is followed by
exactly one re-invocation with deferral count 1, after token 1 has cleared. -/
theorem spec_c1_witness :
    (runState stopAfterDeferPipeline ce3Sched).error = none ∧
    ((stAt stopAfterDeferPipeline ce3Sched 2).progOf 0 = 0 ∧
     (stAt stopAfterDeferPipeline ce3Sched 2).blockersOf 0 = [1].dedup ∧
     (∀ j₁ j₂, j₁ < ce3Sched.length → j₂ < ce3Sched.length →
       evAt stopAfterDeferPipeline ce3Sched j₁ = Event.startE 0 0 1 →
       evAt stopAfterDeferPipeline ce3Sched j₂ = Event.startE 0 0 1 → j₁ = j₂) ∧
     ((runState stopAfterDeferPipeline ce3Sched).drained = true →
       ∃ j, 1 < j ∧ j < ce3Sched.length ∧
         evAt stopAfterDeferPipeline ce3Sched j = Event.startE 0 0 1 ∧
         (∀ d ∈ [1], 0 < (stAt stopAfterDeferPipeline ce3Sched j).progOf d) ∧
         (∀ j' s' c', 1 < j' → j' < j →
           evAt stopAfterDeferPipeline ce3Sched j' ≠ Event.startE 0 s' c'))) :=
  ⟨by decide, spec_c1 stopAfterDeferPipeline ce3Sched 1 0 0 0 [1] false
    (by decide) (by decide) (by decide) (by decide)⟩

/-- Witness for C2: in the concrete run, the stage-0 begin events of fresh
tokens 0 (index 0) and 1 (index 2) respect the id order. -/
theorem spec_c2_witness :
    evAt stopAfterDeferPipeline ce3Sched 0 = Event.startE 0 0 0 ∧
    evAt stopAfterDeferPipeline ce3Sched 2 = Event.startE 1 0 0 ∧
    (0 : Nat) ≤ 1 :=
  ⟨by decide, by decide, spec_c2 stopAfterDeferPipeline ce3Sched 0 0 2 0 1
    (by decide) (by decide) (by decide) (by decide) (by decide)⟩

/-- Witness for C3: in the two-token run where token 1 calls `stop()` on its
first stage-0 invocation (event index 3), the cursor is frozen at 2 = T + 1
from the stop onwards and the drained run has completed both minted tokens. -/
theorem spec_c3_witness :
    evAt simpleStopPipeline ssSched 3 = Event.endE 1 0 0 [] true ∧
    ((∀ k, 3 < k →
        (stAt simpleStopPipeline ssSched k).cursor =
          (stAt simpleStopPipeline ssSched 4).cursor) ∧
     ((runState simpleStopPipeline ssSched).drained = true →
       ∀ u, u < (runState simpleStopPipeline ssSched).cursor →
         (runState simpleStopPipeline ssSched).progOf u =
           simpleStopPipeline.numStages) ∧
     (0 = 0 →
       (stAt simpleStopPipeline ssSched 4).cursor = 2 ∧
       (runState simpleStopPipeline ssSched).cursor = 2 ∧
       ∀ k, (stAt simpleStopPipeline ssSched k).cursor ≤ 2)) :=
  ⟨by decide, spec_c3 simpleStopPipeline ssSched 3 1 0 []
    ⟨by decide, by decide, by decide⟩ (by decide) (by decide) (by decide)⟩

/-- Witness for C4 (amended): the drained error-free one-lane run with one
deferral has 3 invocation returns, bounded by stages times minted tokens (2)
plus the one deferring return. -/
theorem spec_c4_witness :
    (runState stopAfterDeferPipeline ce3Sched).drained = true ∧
    countEnds (runTrace stopAfterDeferPipeline ce3Sched) ≤
      stopAfterDeferPipeline.numStages *
        (runState stopAfterDeferPipeline ce3Sched).cursor +
      countDeferEnds (runTrace stopAfterDeferPipeline ce3Sched) :=
  ⟨by decide, spec_c4 stopAfterDeferPipeline ce3Sched
    (by decide) (by decide) (by decide)⟩

/-- Witness for C7: after the single mint step, lane 0 is the unique lane
executing token 0, and the two-lane coincidence specialises to `0 = 0`. -/
theorem spec_c7_witness :
    (runState stopAfterDeferPipeline [Choice.mint 0]).lanes.get? 0 =
      some (LaneState.executing 0) ∧ (0 : Nat) = 0 :=
  ⟨by decide, spec_c7 stopAfterDeferPipeline [Choice.mint 0] 0 0 0
    (by decide) (by decide)⟩

end Turbo
